import Mathlib

/-! Derivative machine: forward-mode differentiation engine.

Shallow embedding of `derivative_engine.h` and `tmath.h`.

* The C++ type `double` is a type parameter `F` carrying the operations the engine
  uses (class `double`); every definition of the engine is written once, over any such `F`.
* Heap objects (`std::shared_ptr<term>`) are addresses into a list of nodes; the mutable
  members of `cached` live in a parallel list of cells, and evaluation passes that list along.
* `Dbl` is the idealised instance: a NaN plus the real numbers, with exact arithmetic.
* `Ieee` is the instance that also keeps the infinities and the two zeros of IEEE 754
  apart; it is used where the sign of a zero or an infinity decides the outcome.
* `call` makes the two operand calls of a binary node first operand first; `call_in`
  makes them in either order, which C++ leaves open.
* `composite.construct` is the choice of constructor a factory call makes from the static
  type of its argument.
-/

namespace term

/-- The operations on `double` used by the engine: the literals `0.0` and `1.0`, whole
number literals such as `2` and `5.0`, the arithmetic operators, `std::nan("")`, the
comparison `!=`, and the `<cmath>` functions. The one law is the IEEE 754 rule that
`x != NaN` holds for every `x`. -/
class double (F : Type) extends Zero F, One F, NatCast F, Neg F, Add F, Sub F, Mul F,
    Div F where
  nan : F
  ne : F → F → Bool
  pow : F → F → F
  log : F → F
  exp : F → F
  sin : F → F
  cos : F → F
  tan : F → F
  ne_nan : ∀ x : F, ne x nan = true

/-- Dual number `struct value_type { double at, prime; }`. -/
structure value_type (F : Type) where
  at_ : F
  prime : F

namespace value_type

variable {F : Type} [double F]

/-- Unary `operator +`. -/
def pos (a : value_type F) : value_type F :=
  a

/-- Unary `operator -`. -/
def neg (a : value_type F) : value_type F :=
  ⟨-a.at_, -a.prime⟩

/-- Binary `operator +`. -/
def add (a other : value_type F) : value_type F :=
  ⟨a.at_ + other.at_, a.prime + other.prime⟩

/-- Binary `operator -`. -/
def sub (a other : value_type F) : value_type F :=
  ⟨a.at_ - other.at_, a.prime - other.prime⟩

/-- Binary `operator *`. -/
def mul (a other : value_type F) : value_type F :=
  ⟨a.at_ * other.at_, a.prime * other.at_ + other.prime * a.at_⟩

/-- Binary `operator /`. -/
def div (a other : value_type F) : value_type F :=
  ⟨a.at_ * other.at_, a.prime * other.at_ + other.prime * a.at_⟩

/-- Binary `operator ^(const value_type&)`. -/
def pow (a other : value_type F) : value_type F :=
  let result := double.pow a.at_ other.at_
  ⟨result, result * (other.prime * double.log a.at_ + a.prime * other.at_ / a.at_)⟩

/-- Binary `operator ^(double)`. -/
def pow_d (a : value_type F) (exponent : F) : value_type F :=
  let result := double.pow a.at_ (exponent - 1)
  ⟨result * a.at_, exponent * result * a.prime⟩

end value_type

/-- Data members of `class cached`: the last-seen point and the result stored for it. -/
structure cached (F : Type) where
  m_point : F
  m_cache : value_type F

/-- The final subclasses of `cached`, each with its data members; a
`std::shared_ptr<term>` member is the address of the object it points to. -/
inductive cached_kind (F : Type) where
  | custom (m_fn m_der : F → F)
  | term_inv (m_inv : Nat)
  | term_add (m_first m_second : Nat)
  | term_sub (m_first m_second : Nat)
  | term_mul (m_first m_second : Nat)
  | term_div (m_first m_second : Nat)
  | term_comp (m_first m_second : Nat)
  | term_pow (m_first m_second : Nat)
  | term_pow_d (m_base : Nat) (m_exponent : F)
  | d_pow_term (m_base : F) (m_exponent : Nat)
  | exp_term
  | log_term
  | sin_term
  | cos_term
  | tan_term

/-- The concrete subclasses of `struct term`: those deriving from `cached`, and the two
that derive from `term` directly. -/
inductive node (F : Type) where
  | cached (k : cached_kind F)
  | const_term (m_value : F)
  | arg_term

/-- What one call of `term::operator()` produces: the returned value, the cells of the
objects it could reach, and how many times a `miss` handler ran during the call. -/
structure outcome (F : Type) where
  val : value_type F
  cells : List (cached F)
  misses : Nat

variable {F : Type} [double F]

/-- The overrides of `cached::miss`, one per subclass. `ev cells a x` is the call
`(*ptr)(x)` through the pointer with address `a`. In the five binary nodes the call
through `m_first` is made first; C++ leaves the order of the two calls unspecified, and
`cached_kind.miss_in` gives the handlers under either order. The order shows only where
the two operands share a memoized object: in the cells and miss counts, and, when that
object is reached at two zeros of opposite sign, in the values. -/
def cached_kind.miss (ev : List (cached F) → Nat → F → outcome F) :
    cached_kind F → F → List (cached F) → outcome F
  | .custom m_fn m_der, point, σ => ⟨⟨m_fn point, m_der point⟩, σ, 0⟩
  | .term_inv m_inv, point, σ =>
    let r := ev σ m_inv point
    ⟨r.val.neg, r.cells, r.misses⟩
  | .term_add m_first m_second, point, σ =>
    let r1 := ev σ m_first point
    let r2 := ev r1.cells m_second point
    ⟨r1.val.add r2.val, r2.cells, r1.misses + r2.misses⟩
  | .term_sub m_first m_second, point, σ =>
    let r1 := ev σ m_first point
    let r2 := ev r1.cells m_second point
    ⟨r1.val.sub r2.val, r2.cells, r1.misses + r2.misses⟩
  | .term_mul m_first m_second, point, σ =>
    let r1 := ev σ m_first point
    let r2 := ev r1.cells m_second point
    ⟨r1.val.mul r2.val, r2.cells, r1.misses + r2.misses⟩
  | .term_div m_first m_second, point, σ =>
    let r1 := ev σ m_first point
    let r2 := ev r1.cells m_second point
    ⟨r1.val.div r2.val, r2.cells, r1.misses + r2.misses⟩
  | .term_comp m_first m_second, point, σ =>
    let second := ev σ m_second point
    let first := ev second.cells m_first second.val.at_
    ⟨⟨first.val.at_, first.val.prime * second.val.prime⟩, first.cells,
      second.misses + first.misses⟩
  | .term_pow m_first m_second, point, σ =>
    let r1 := ev σ m_first point
    let r2 := ev r1.cells m_second point
    ⟨r1.val.pow r2.val, r2.cells, r1.misses + r2.misses⟩
  | .term_pow_d m_base m_exponent, point, σ =>
    let r := ev σ m_base point
    ⟨r.val.pow_d m_exponent, r.cells, r.misses⟩
  | .d_pow_term m_base m_exponent, point, σ =>
    let exp_val := ev σ m_exponent point
    let result := double.pow m_base exp_val.val.at_
    ⟨⟨result, result * exp_val.val.prime⟩, exp_val.cells, exp_val.misses⟩
  | .exp_term, point, σ =>
    let result := double.exp point
    ⟨⟨result, result⟩, σ, 0⟩
  | .log_term, point, σ => ⟨⟨double.log point, 1 / point⟩, σ, 0⟩
  | .sin_term, point, σ => ⟨⟨double.sin point, double.cos point⟩, σ, 0⟩
  | .cos_term, point, σ => ⟨⟨double.cos point, -double.sin point⟩, σ, 0⟩
  | .tan_term, point, σ =>
    let result := double.tan point
    ⟨⟨result, 1 + result * result⟩, σ, 0⟩

/-- The virtual call `(*ptr)(point)` where `ptr` has address `a`. The node list is newest
first, so the object at the head has address `g.length` and every pointer it holds was
created earlier and lies in the tail. For a `cached` object this is
`cached::operator()`: on `point != m_point` it stores the point and the result of
`miss`, and it returns `m_cache`. An address that names no object yields NaN. -/
def call : List (node F) → List (cached F) → Nat → F → outcome F
  | n :: g, c :: σ, a, point =>
    if a < g.length then
      let r := call g σ a point
      ⟨r.val, c :: r.cells, r.misses⟩
    else if a = g.length then
      match n with
      | .const_term m_value => ⟨⟨m_value, 0⟩, c :: σ, 0⟩
      | .arg_term => ⟨⟨point, 1⟩, c :: σ, 0⟩
      | .cached k =>
        if double.ne point c.m_point then
          let r := k.miss (call g) point σ
          ⟨r.val, ⟨point, r.val⟩ :: r.cells, r.misses + 1⟩
        else ⟨c.m_cache, c :: σ, 0⟩
    else ⟨⟨double.nan, double.nan⟩, c :: σ, 0⟩
  | _, σ, _, _ => ⟨⟨double.nan, double.nan⟩, σ, 0⟩

/-- The program state the engine works on: the objects allocated so far (newest first),
the `cached` members of each (same order), the function-local static `ptr` of
`arg_term::get` (`none` until its first use), and a count of the `miss` calls made so
far, which the code itself never reads. -/
structure heap (F : Type) where
  nodes : List (node F)
  cells : List (cached F)
  arg : Option Nat
  misses : Nat

/-- State at program start: nothing allocated, the static of `arg_term::get` not yet
initialised. -/
def heap.init : heap F :=
  ⟨[], [], none, 0⟩

/-- The expression `new T(...)`: the object gets the next address, and the constructor
`cached::cached` sets `m_point` to NaN and `m_cache` to `{ m_point, m_point }` (the
cell of a `const_term` or `arg_term` is never read). -/
def heap.alloc (h : heap F) (n : node F) : heap F × Nat :=
  (⟨n :: h.nodes, ⟨double.nan, ⟨double.nan, double.nan⟩⟩ :: h.cells, h.arg, h.misses⟩,
    h.nodes.length)

/-- The static member `arg_term::get`: the singleton is created on the first call and
the same pointer is returned ever after. -/
def arg_term.get (h : heap F) : heap F × Nat :=
  match h.arg with
  | some ptr => (h, ptr)
  | none =>
    let r := h.alloc node.arg_term
    (⟨r.1.nodes, r.1.cells, some r.2, r.1.misses⟩, r.2)

/-- The handle `class variable`, holding `std::shared_ptr<term> m_term`. -/
structure variable_ where
  m_term : Nat

namespace variable_

/-- Constructor `variable(term* ptr)` applied to a `new` expression. -/
def of_new (h : heap F) (n : node F) : heap F × variable_ :=
  ((h.alloc n).1, ⟨(h.alloc n).2⟩)

/-- Default constructor `variable()`. -/
def mk_arg (h : heap F) : heap F × variable_ :=
  ((arg_term.get h).1, ⟨(arg_term.get h).2⟩)

/-- Converting constructor `variable(double value)`. -/
def of_double (h : heap F) (value : F) : heap F × variable_ :=
  of_new h (.const_term value)

/-- Evaluation `operator()(double point)`. -/
def call (h : heap F) (v : variable_) (point : F) : value_type F × heap F :=
  let r := term.call h.nodes h.cells v.m_term point
  (r.val, ⟨h.nodes, r.cells, h.arg, h.misses + r.misses⟩)

/-- Unary `operator +`. -/
def pos (h : heap F) (v : variable_) : heap F × variable_ :=
  (h, v)

/-- Unary `operator -`. -/
def neg (h : heap F) (v : variable_) : heap F × variable_ :=
  of_new h (.cached (.term_inv v.m_term))

/-- Binary `operator +`. -/
def add (h : heap F) (one other : variable_) : heap F × variable_ :=
  of_new h (.cached (.term_add one.m_term other.m_term))

/-- Binary `operator -`. -/
def sub (h : heap F) (one other : variable_) : heap F × variable_ :=
  of_new h (.cached (.term_sub one.m_term other.m_term))

/-- Binary `operator *`. -/
def mul (h : heap F) (one other : variable_) : heap F × variable_ :=
  of_new h (.cached (.term_mul one.m_term other.m_term))

/-- Binary `operator /`. -/
def div (h : heap F) (one other : variable_) : heap F × variable_ :=
  of_new h (.cached (.term_div one.m_term other.m_term))

/-- Composition `operator ()(const variable& other)`. -/
def comp (h : heap F) (v other : variable_) : heap F × variable_ :=
  of_new h (.cached (.term_comp v.m_term other.m_term))

/-- Power `operator ^(const variable& other)`. -/
def pow (h : heap F) (v other : variable_) : heap F × variable_ :=
  of_new h (.cached (.term_pow v.m_term other.m_term))

/-- Power `operator ^(double exponent)`. -/
def pow_d (h : heap F) (v : variable_) (exponent : F) : heap F × variable_ :=
  of_new h (.cached (.term_pow_d v.m_term exponent))

/-- The friend `operator ^(double base, const variable& exponent)`. -/
def d_pow (h : heap F) (base : F) (exponent : variable_) : heap F × variable_ :=
  of_new h (.cached (.d_pow_term base exponent.m_term))

end variable_

namespace composite

/-- Constructor `composite()` of `composite<comp_term>`: `variable(new comp_term)`. -/
def mk (h : heap F) (comp_term : cached_kind F) : heap F × variable_ :=
  variable_.of_new h (.cached comp_term)

/-- Constructor `composite(const variable& var)`: `variable(composite()(var))`. Which
arguments select it is decided by `composite.construct`. -/
def of_var (h : heap F) (comp_term : cached_kind F) (var : variable_) : heap F × variable_ :=
  variable_.comp (mk h comp_term).1 (mk h comp_term).2 var

end composite

/-- The factory `using exp = composite<exp_term>` called as `term::exp(var)` on an argument
of static type `term::variable`, for which `composite(const variable&)` is selected. -/
def exp (h : heap F) (var : variable_) : heap F × variable_ :=
  composite.of_var h .exp_term var

/-- The factory `using log = composite<log_term>` called as `term::log(var)` on an argument
of static type `term::variable`, for which `composite(const variable&)` is selected. -/
def log (h : heap F) (var : variable_) : heap F × variable_ :=
  composite.of_var h .log_term var

/-- The factory `using sin = composite<sin_term>` called as `term::sin(var)` on an argument
of static type `term::variable`, for which `composite(const variable&)` is selected. -/
def sin (h : heap F) (var : variable_) : heap F × variable_ :=
  composite.of_var h .sin_term var

/-- The factory `using cos = composite<cos_term>` called as `term::cos(var)` on an argument
of static type `term::variable`, for which `composite(const variable&)` is selected. -/
def cos (h : heap F) (var : variable_) : heap F × variable_ :=
  composite.of_var h .cos_term var

/-- The factory `using tan = composite<tan_term>` called as `term::tan(var)` on an argument
of static type `term::variable`, for which `composite(const variable&)` is selected. -/
def tan (h : heap F) (var : variable_) : heap F × variable_ :=
  composite.of_var h .tan_term var

/-- The object at address `a`, if one has been allocated there. -/
def heap.node_at (h : heap F) (a : Nat) : Option (node F) :=
  h.nodes.reverse.get? a

/-- Consistency of a program state: every object has its cell, and the static of
`arg_term::get`, once set, points to an `arg_term`. -/
def heap.wf (h : heap F) : Prop :=
  h.cells.length = h.nodes.length ∧ ∀ a, h.arg = some a → h.node_at a = some node.arg_term

/-- Idealised doubles: NaN, or a real number. Arithmetic on numbers is exact; there is no
rounding, no overflow to infinity and no signed zero. NaN propagates through every
operation and `!=` holds whenever an operand is NaN. Two evaluations that agree here
denote the same real numbers; the doubles the program prints for them may still differ
in their last bits, or by an overflow. -/
inductive Dbl where
  | nan
  | fin (x : ℝ)

namespace Dbl

/-- Lift of a unary real function, NaN-propagating. -/
def map (f : ℝ → ℝ) : Dbl → Dbl
  | fin x => fin (f x)
  | nan => nan

/-- Lift of a binary real function, NaN-propagating. -/
def map₂ (f : ℝ → ℝ → ℝ) : Dbl → Dbl → Dbl
  | fin x, fin y => fin (f x y)
  | _, _ => nan

/-- The comparison `!=`. -/
noncomputable def ne : Dbl → Dbl → Bool
  | fin x, fin y => decide (x ≠ y)
  | _, _ => true

end Dbl

/-- The operations of the idealised doubles. Inside their real domains they are the real
functions. Outside (a quotient by zero, `log` of a number that is not positive, a
negative base with an exponent that is not whole, a zero base with a negative exponent)
they return the value the real function is given there by convention, where the C
library returns NaN or an infinity: what is proved of the calculus over `Dbl` keeps the
arguments inside the domains by hypothesis. -/
noncomputable instance : double Dbl where
  zero := .fin 0
  one := .fin 1
  natCast := fun n => .fin n
  neg := Dbl.map (fun x => -x)
  add := Dbl.map₂ (fun x y => x + y)
  sub := Dbl.map₂ (fun x y => x - y)
  mul := Dbl.map₂ (fun x y => x * y)
  div := Dbl.map₂ (fun x y => x / y)
  nan := .nan
  ne := Dbl.ne
  pow := Dbl.map₂ (fun x y => x ^ y)
  log := Dbl.map Real.log
  exp := Dbl.map Real.exp
  sin := Dbl.map Real.sin
  cos := Dbl.map Real.cos
  tan := Dbl.map Real.tan
  ne_nan := fun x => by cases x <;> rfl

/-- The composition `sin(cos)` of the bare elementary handles `term::sin()` and
`term::cos()`, by `operator ()(const variable&)`. -/
def sin_cos (h : heap F) : heap F × variable_ :=
  let s := composite.mk h .sin_term
  let c := composite.mk s.1 .cos_term
  variable_.comp c.1 s.2 c.2

/-- From `main`: `term::variable x; term::variable exp = term::exp(x);` and then
`term::variable d = x * exp;`. -/
def main_d (h : heap F) : heap F × variable_ :=
  let x := variable_.mk_arg h
  let exp := term.exp x.1 x.2
  variable_.mul exp.1 x.2 exp.2

/-- From `main`: `term::variable x; term::variable a = x ^ x;`. -/
def main_a (h : heap F) : heap F × variable_ :=
  let x := variable_.mk_arg h
  variable_.pow x.1 x.2 x.2

/-- From `main`: `term::variable x; term::variable exp = term::exp(x);
term::variable C = 5.0;` and the subexpression `2 * C`, whose literal is converted by
`variable(double)`. Returns the state, the handle `exp` and the handle of `2 * C`. -/
def main_2C (h : heap F) : heap F × variable_ × variable_ :=
  let x := variable_.mk_arg h
  let exp := term.exp x.1 x.2
  let C := variable_.of_double exp.1 5
  let two := variable_.of_double C.1 2
  let m := variable_.mul two.1 two.2 C.2
  (m.1, exp.2, m.2)

/-- From `main`: `term::variable b = (2 * C) ^ exp;`. -/
def main_b (h : heap F) : heap F × variable_ :=
  variable_.pow (main_2C h).1 (main_2C h).2.2 (main_2C h).2.1

/-- From `main`: `term::variable y; y = -(y ^ 2);`. The `int` literal converts to
`double`, so `y ^ 2` is `operator ^(double)`. -/
def main_y (h : heap F) : heap F × variable_ :=
  let y := variable_.mk_arg h
  let sq := variable_.pow_d y.1 y.2 2
  variable_.neg sq.1 sq.2

/-- From `main`: `term::variable x; term::variable exp = term::exp(x);` at program
start: the state, and the handle `exp`, whose static type is `term::variable`. -/
def exp_exp_x (F : Type) [double F] : heap F × variable_ :=
  let x := variable_.mk_arg (heap.init : heap F)
  term.exp x.1 x.2

/-- The handle `-x` over the free variable `x`, built at program start. -/
def neg_x (F : Type) [double F] : heap F × variable_ :=
  variable_.neg (variable_.mk_arg (heap.init : heap F)).1
    (variable_.mk_arg (heap.init : heap F)).2

/-- The state after the handle `-x`, built at program start, has been evaluated once at
`point`. -/
def neg_x_seen (F : Type) [double F] (point : F) : heap F :=
  ((neg_x F).2.call (neg_x F).1 point).2

/-- The handle `term::variable(1.0) / term::variable(0.0)`, built at program start. -/
def one_div_zero (F : Type) [double F] : heap F × variable_ :=
  let one := variable_.of_double (heap.init : heap F) 1
  let zero := variable_.of_double one.1 0
  variable_.div zero.1 one.2 zero.2

/-- The reading the data model gives to a dual number: `a` holds the value of `f` at `p`
in `at` and the derivative of `f` at `p` in `prime`. -/
def value_type.taylor (a : value_type Dbl) (f : ℝ → ℝ) (p : ℝ) : Prop :=
  ∃ d : ℝ, a = ⟨Dbl.fin (f p), Dbl.fin d⟩ ∧ HasDerivAt f d p

/-- What `(t ^ k)(point)` returns for a literal exponent `k`: `operator ^(double)`
and then the evaluation. -/
def literal_exponent_result (h : heap F) (t : variable_) (k point : F) : value_type F :=
  (variable_.call (variable_.pow_d h t k).1 (variable_.pow_d h t k).2 point).1

/-- What `(t ^ term::variable(k))(point)` returns: the constant handle is constructed,
then `operator ^(const variable&)`, then the evaluation. -/
def handle_exponent_result (h : heap F) (t : variable_) (k point : F) : value_type F :=
  let c := variable_.of_double h k
  let b := variable_.pow c.1 t c.2
  (variable_.call b.1 b.2 point).1

/-- What `(k ^ t)(point)` returns for a literal base `k`: the friend
`operator ^(double, const variable&)` and then the evaluation. -/
def literal_base_result (h : heap F) (k : F) (t : variable_) (point : F) : value_type F :=
  (variable_.call (variable_.d_pow h k t).1 (variable_.d_pow h k t).2 point).1

/-- What `(term::variable(k) ^ t)(point)` returns: the constant handle is constructed,
then `operator ^(const variable&)`, then the evaluation. -/
def handle_base_result (h : heap F) (k : F) (t : variable_) (point : F) : value_type F :=
  let c := variable_.of_double h k
  let b := variable_.pow c.1 c.2 t
  (variable_.call b.1 b.2 point).1

/-- The cache-free recursive evaluator the memoizing engine is compared with: the same
dispatch as `call` and the same `miss` handlers, but no cell is ever read or written;
each handler calls the evaluator itself for its children. -/
def evaluate : List (node F) → Nat → F → value_type F
  | [], _, _ => ⟨double.nan, double.nan⟩
  | n :: g, a, point =>
    if a < g.length then evaluate g a point
    else if a = g.length then
      match n with
      | .const_term m_value => ⟨m_value, 0⟩
      | .arg_term => ⟨point, 1⟩
      | .cached k => (k.miss (fun σ b x => ⟨evaluate g b x, σ, 0⟩) point []).val
    else ⟨double.nan, double.nan⟩

/-- The invariant of the caches: every object has its cell, and whenever the last-seen
point `m_point` of a `cached` object is a point proper (it compares equal to itself, so
it is not the NaN the constructor put there), the stored `m_cache` is the cache-free
evaluation of that object at `m_point`. -/
def coherent : List (node F) → List (cached F) → Prop
  | [], [] => True
  | n :: g, c :: σ =>
    (∀ k, n = node.cached k → double.ne c.m_point c.m_point = false →
        c.m_cache = evaluate (n :: g) g.length c.m_point)
      ∧ coherent g σ
  | _, _ => False

/-- The cache invariant of a program state. -/
def heap.coherent (h : heap F) : Prop :=
  term.coherent h.nodes h.cells

/-- One step of a client program: an operator or converting constructor, each of which
is `variable(new T(...))` for its node `T(...)`; the default constructor `variable()`;
or an evaluation `handle(point)`. -/
inductive step (F : Type) where
  | new_node (n : node F)
  | default_ctor
  | call (v : variable_) (point : F)

/-- The values the cache-free evaluator gives for the evaluations of the same client
program: the objects are built alike, and no evaluation leaves a trace. -/
def run_cache_free : heap F → List (step F) → List (value_type F)
  | _, [] => []
  | h, .new_node n :: rest => run_cache_free (variable_.of_new h n).1 rest
  | h, .default_ctor :: rest => run_cache_free (variable_.mk_arg h).1 rest
  | h, .call v point :: rest => evaluate h.nodes v.m_term point :: run_cache_free h rest

/-- Expression trees without Divide and without constant-base power: constants, the
free variable, the bare elementary functions, and the combinators built by the handle
operators. -/
inductive expr where
  | const (c : ℝ)
  | var
  | exp
  | log
  | sin
  | cos
  | tan
  | neg (e : expr)
  | add (one other : expr)
  | sub (one other : expr)
  | mul (one other : expr)
  | comp (outer inner : expr)
  | pow (base exponent : expr)
  | pow_d (base : expr) (exponent : ℝ)

/-- The real function an expression tree denotes. -/
noncomputable def expr.denote : expr → ℝ → ℝ
  | .const c => fun _ => c
  | .var => fun x => x
  | .exp => fun x => Real.exp x
  | .log => fun x => Real.log x
  | .sin => fun x => Real.sin x
  | .cos => fun x => Real.cos x
  | .tan => fun x => Real.tan x
  | .neg e => fun x => -e.denote x
  | .add one other => fun x => one.denote x + other.denote x
  | .sub one other => fun x => one.denote x - other.denote x
  | .mul one other => fun x => one.denote x * other.denote x
  | .comp outer inner => fun x => outer.denote (inner.denote x)
  | .pow base exponent => fun x => base.denote x ^ exponent.denote x
  | .pow_d base exponent => fun x => base.denote x ^ exponent

/-- The points at which evaluation stays inside the domains: every `log` argument and
every power base met on the way is positive, every `tan` argument has non-zero cosine. -/
def expr.defined : expr → ℝ → Prop
  | .const _, _ => True
  | .var, _ => True
  | .exp, _ => True
  | .log, x => 0 < x
  | .sin, _ => True
  | .cos, _ => True
  | .tan, x => Real.cos x ≠ 0
  | .neg e, x => e.defined x
  | .add one other, x => one.defined x ∧ other.defined x
  | .sub one other, x => one.defined x ∧ other.defined x
  | .mul one other, x => one.defined x ∧ other.defined x
  | .comp outer inner, x => inner.defined x ∧ outer.defined (inner.denote x)
  | .pow base exponent, x => base.defined x ∧ exponent.defined x ∧ 0 < base.denote x
  | .pow_d base _, x => base.defined x ∧ 0 < base.denote x

/-- The client code that builds the handle of an expression tree with the constructors
and operators of `variable`, operands left to right; `lit` turns a real literal into a
`double`. -/
def expr.build (lit : ℝ → F) : expr → heap F → heap F × variable_
  | .const c, h => variable_.of_double h (lit c)
  | .var, h => variable_.mk_arg h
  | .exp, h => composite.mk h .exp_term
  | .log, h => composite.mk h .log_term
  | .sin, h => composite.mk h .sin_term
  | .cos, h => composite.mk h .cos_term
  | .tan, h => composite.mk h .tan_term
  | .neg e, h =>
    let a := e.build lit h
    variable_.neg a.1 a.2
  | .add one other, h =>
    let a := one.build lit h
    let b := other.build lit a.1
    variable_.add b.1 a.2 b.2
  | .sub one other, h =>
    let a := one.build lit h
    let b := other.build lit a.1
    variable_.sub b.1 a.2 b.2
  | .mul one other, h =>
    let a := one.build lit h
    let b := other.build lit a.1
    variable_.mul b.1 a.2 b.2
  | .comp outer inner, h =>
    let a := outer.build lit h
    let b := inner.build lit a.1
    variable_.comp b.1 a.2 b.2
  | .pow base exponent, h =>
    let a := base.build lit h
    let b := exponent.build lit a.1
    variable_.pow b.1 a.2 b.2
  | .pow_d base exponent, h =>
    let a := base.build lit h
    variable_.pow_d a.1 a.2 (lit exponent)

/-- The pair `r` of a state and a handle comes from the state `h` by construction only:
the state is consistent, the objects of `h` are still there, the handle points to an
object, and coherent caches stayed coherent. -/
def heap.grows (h : heap F) (r : heap F × variable_) : Prop :=
  r.1.wf ∧ (∃ pre, r.1.nodes = pre ++ h.nodes) ∧ r.2.m_term < r.1.nodes.length
    ∧ (h.coherent → r.1.coherent)

/-- From `main`: `term::variable c = term::sin(x) ^ term::cos(x);` as an expression
tree. -/
def main_c : expr :=
  .pow (.comp .sin .var) (.comp .cos .var)

/-- Doubles with the special values of IEEE 754 kept apart: NaN, the two infinities, the
two zeros, and the other finite numbers as non-zero reals (`num`). The flag is the sign
bit. Arithmetic on numbers is still exact: no rounding, overflow or underflow. -/
inductive Ieee where
  | nan
  | inf (negative : Bool)
  | zero (negative : Bool)
  | num (x : ℝ)

namespace Ieee

/-- The double for an exactly computed real; an exact zero takes the given sign. -/
noncomputable def of_real (x : ℝ) (negative : Bool) : Ieee :=
  if x = 0 then zero negative else num x

/-- The sign bit (`false` for NaN). -/
noncomputable def negative : Ieee → Bool
  | nan => false
  | inf s => s
  | zero s => s
  | num x => decide (x < 0)

/-- Whether a real is an odd whole number. -/
noncomputable def odd_integer (y : ℝ) : Bool :=
  decide (y = (⌊y⌋ : ℝ) ∧ Odd ⌊y⌋)

/-- Unary minus: flips the sign bit. -/
def neg : Ieee → Ieee
  | nan => nan
  | inf s => inf (!s)
  | zero s => zero (!s)
  | num x => num (-x)

/-- Addition: opposite infinities give NaN, an exact zero sum is `+0` unless both
operands are `-0`. -/
noncomputable def add : Ieee → Ieee → Ieee
  | nan, _ => nan
  | _, nan => nan
  | inf s, inf t => if s = t then inf s else nan
  | inf s, _ => inf s
  | _, inf t => inf t
  | zero s, zero t => zero (s && t)
  | zero _, num y => num y
  | num x, zero _ => num x
  | num x, num y => of_real (x + y) false

/-- Multiplication: the sign is the exclusive or of the signs, `∞ * 0` is NaN. -/
noncomputable def mul : Ieee → Ieee → Ieee
  | nan, _ => nan
  | _, nan => nan
  | inf _, zero _ => nan
  | zero _, inf _ => nan
  | inf s, b => inf (xor s b.negative)
  | a, inf t => inf (xor a.negative t)
  | zero s, b => zero (xor s b.negative)
  | a, zero t => zero (xor a.negative t)
  | num x, num y => of_real (x * y) (xor (decide (x < 0)) (decide (y < 0)))

/-- Division: `∞ / ∞` and `0 / 0` are NaN, a non-zero number over a zero is an
infinity, the sign is the exclusive or of the signs. -/
noncomputable def div : Ieee → Ieee → Ieee
  | nan, _ => nan
  | _, nan => nan
  | inf _, inf _ => nan
  | zero _, zero _ => nan
  | inf s, b => inf (xor s b.negative)
  | a, inf t => zero (xor a.negative t)
  | a, zero t => inf (xor a.negative t)
  | zero s, b => zero (xor s b.negative)
  | num x, num y => of_real (x / y) (xor (decide (x < 0)) (decide (y < 0)))

/-- The comparison `!=`: true with a NaN operand, false between the two zeros. -/
noncomputable def ne : Ieee → Ieee → Bool
  | nan, _ => true
  | _, nan => true
  | inf s, inf t => s != t
  | zero _, zero _ => false
  | num x, num y => decide (x ≠ y)
  | _, _ => true

/-- `std::exp`. -/
noncomputable def exp : Ieee → Ieee
  | nan => nan
  | inf s => if s then zero false else inf false
  | zero _ => num 1
  | num x => num (Real.exp x)

/-- `std::log`: `-∞` at either zero, NaN below zero. -/
noncomputable def log : Ieee → Ieee
  | nan => nan
  | inf s => if s then nan else inf false
  | zero _ => inf true
  | num x => if x < 0 then nan else of_real (Real.log x) false

/-- `std::sin`. -/
noncomputable def sin : Ieee → Ieee
  | nan => nan
  | inf _ => nan
  | zero s => zero s
  | num x => of_real (Real.sin x) (decide (x < 0))

/-- `std::cos`. -/
noncomputable def cos : Ieee → Ieee
  | nan => nan
  | inf _ => nan
  | zero _ => num 1
  | num x => of_real (Real.cos x) false

/-- `std::tan`. -/
noncomputable def tan : Ieee → Ieee
  | nan => nan
  | inf _ => nan
  | zero s => zero s
  | num x => of_real (Real.tan x) (decide (x < 0))

/-- `std::pow`, with the special cases of C Annex F. -/
noncomputable def pow : Ieee → Ieee → Ieee
  | _, zero _ => num 1
  | num x, nan => if x = 1 then num 1 else nan
  | _, nan => nan
  | nan, _ => nan
  | zero _, inf t => if t then inf false else zero false
  | zero s, num y =>
    if y < 0 then (if odd_integer y then inf s else inf false)
    else (if odd_integer y then zero s else zero false)
  | inf _, inf t => if t then zero false else inf false
  | inf s, num y =>
    if y < 0 then (if s && odd_integer y then zero true else zero false)
    else (if s && odd_integer y then inf true else inf false)
  | num x, inf t =>
    if |x| = 1 then num 1 else if decide (|x| < 1) = t then inf false else zero false
  | num x, num y =>
    if 0 < x then num (x ^ y)
    else if y = (⌊y⌋ : ℝ) then of_real (x ^ ⌊y⌋) false else nan

end Ieee

noncomputable instance : double Ieee where
  zero := .zero false
  one := .num 1
  natCast := fun n => Ieee.of_real n false
  neg := Ieee.neg
  add := Ieee.add
  sub := fun a b => Ieee.add a (Ieee.neg b)
  mul := Ieee.mul
  div := Ieee.div
  nan := .nan
  ne := Ieee.ne
  pow := Ieee.pow
  log := Ieee.log
  exp := Ieee.exp
  sin := Ieee.sin
  cos := Ieee.cos
  tan := Ieee.tan
  ne_nan := fun x => by cases x <;> rfl

/-- A client program on the two zeros: `term::log L;` (the bare handle), then `L(0.0)`
and `L(-0.0)`. -/
def zeros_program : List (step Ieee) :=
  [.new_node (.cached .log_term), .call ⟨0⟩ (.zero false), .call ⟨0⟩ (.zero true)]

/-- The template arguments of the five factories of `tmath.h`. -/
inductive elementary where
  | exp_term
  | log_term
  | sin_term
  | cos_term
  | tan_term
  deriving DecidableEq

/-- The `cached` subclass a template argument stands for. -/
def elementary.kind (F : Type) : elementary → cached_kind F
  | .exp_term => .exp_term
  | .log_term => .log_term
  | .sin_term => .sin_term
  | .cos_term => .cos_term
  | .tan_term => .tan_term

/-- The static type of the argument of a factory call: `term::variable` (`base`), or
`composite<comp_term>`. -/
inductive handle_type where
  | base
  | composite (comp_term : elementary)

/-- The expression `composite<comp_term>(arg)`, by overload resolution on the static
type of `arg`. An argument that is itself a `composite<comp_term>` is an exact match for
the implicitly declared copy and move constructors (and a prvalue is not copied at
all): the result is a handle to the argument's own object and nothing is allocated. Any
other argument converts to `const variable&` and selects `composite(const variable&)`. -/
def composite.construct (h : heap F) (comp_term : elementary) (arg_type : handle_type)
    (arg : variable_) : heap F × variable_ :=
  match arg_type with
  | .base => composite.of_var h (comp_term.kind F) arg
  | .composite other =>
    if other = comp_term then (h, arg) else composite.of_var h (comp_term.kind F) arg

/-- The expression `term::exp(term::exp(x))` over `term::variable x`, at program start:
the inner call has an argument of type `term::variable`, the outer call an argument of
type `composite<exp_term>`. -/
def exp_of_exp_x (F : Type) [double F] : heap F × variable_ :=
  let x := variable_.mk_arg (heap.init : heap F)
  let inner := composite.construct x.1 .exp_term .base x.2
  composite.construct inner.1 .exp_term (.composite .exp_term) inner.2

/-- The overrides of `cached::miss` as `cached_kind.miss` gives them, except that in
`(*m_first)(point) op (*m_second)(point)` of the five binary nodes the call through
`m_second` is made first. C++ does not fix the order of these two calls; the two calls
of `term_comp::miss` are separate statements, which fixes theirs. -/
def cached_kind.miss_right_first (ev : List (cached F) → Nat → F → outcome F) :
    cached_kind F → F → List (cached F) → outcome F
  | .term_add m_first m_second, point, σ =>
    let r2 := ev σ m_second point
    let r1 := ev r2.cells m_first point
    ⟨r1.val.add r2.val, r1.cells, r2.misses + r1.misses⟩
  | .term_sub m_first m_second, point, σ =>
    let r2 := ev σ m_second point
    let r1 := ev r2.cells m_first point
    ⟨r1.val.sub r2.val, r1.cells, r2.misses + r1.misses⟩
  | .term_mul m_first m_second, point, σ =>
    let r2 := ev σ m_second point
    let r1 := ev r2.cells m_first point
    ⟨r1.val.mul r2.val, r1.cells, r2.misses + r1.misses⟩
  | .term_div m_first m_second, point, σ =>
    let r2 := ev σ m_second point
    let r1 := ev r2.cells m_first point
    ⟨r1.val.div r2.val, r1.cells, r2.misses + r1.misses⟩
  | .term_pow m_first m_second, point, σ =>
    let r2 := ev σ m_second point
    let r1 := ev r2.cells m_first point
    ⟨r1.val.pow r2.val, r1.cells, r2.misses + r1.misses⟩
  | k, point, σ => k.miss ev point σ

/-- The overrides of `cached::miss` under either order of the operand calls of the
binary nodes: the second operand first when `right_first`, the first operand first
otherwise. -/
def cached_kind.miss_in (right_first : Bool) (ev : List (cached F) → Nat → F → outcome F)
    (k : cached_kind F) (point : F) (σ : List (cached F)) : outcome F :=
  if right_first then k.miss_right_first ev point σ else k.miss ev point σ

/-- The virtual call `(*ptr)(point)` as in `call`, under the given order of the operand
calls. -/
def call_in (right_first : Bool) : List (node F) → List (cached F) → Nat → F → outcome F
  | n :: g, c :: σ, a, point =>
    if a < g.length then
      let r := call_in right_first g σ a point
      ⟨r.val, c :: r.cells, r.misses⟩
    else if a = g.length then
      match n with
      | .const_term m_value => ⟨⟨m_value, 0⟩, c :: σ, 0⟩
      | .arg_term => ⟨⟨point, 1⟩, c :: σ, 0⟩
      | .cached k =>
        if double.ne point c.m_point then
          let r := k.miss_in right_first (call_in right_first g) point σ
          ⟨r.val, ⟨point, r.val⟩ :: r.cells, r.misses + 1⟩
        else ⟨c.m_cache, c :: σ, 0⟩
    else ⟨⟨double.nan, double.nan⟩, c :: σ, 0⟩
  | _, σ, _, _ => ⟨⟨double.nan, double.nan⟩, σ, 0⟩

/-- Evaluation `operator()(double point)` of a handle, under the given order of the
operand calls. -/
def variable_.call_in (right_first : Bool) (h : heap F) (v : variable_) (point : F) :
    value_type F × heap F :=
  let r := term.call_in right_first h.nodes h.cells v.m_term point
  (r.val, ⟨h.nodes, r.cells, h.arg, h.misses + r.misses⟩)

/-- The values returned by the evaluations of a client program, run on the engine under
the given order of the operand calls. -/
def run_in (right_first : Bool) : heap F → List (step F) → List (value_type F)
  | _, [] => []
  | h, .new_node n :: rest => run_in right_first (variable_.of_new h n).1 rest
  | h, .default_ctor :: rest => run_in right_first (variable_.mk_arg h).1 rest
  | h, .call v point :: rest =>
    (v.call_in right_first h point).1 :: run_in right_first (v.call_in right_first h point).2 rest

/-- Two operand calls made one after the other, in the given order, are both exact. -/
def exact_pair (right_first : Bool) (ev : List (cached F) → Nat → F → outcome F)
    (ex : List (cached F) → Nat → F → Prop) (m_first m_second : Nat) (point : F)
    (σ : List (cached F)) : Prop :=
  if right_first then ex σ m_second point ∧ ex (ev σ m_second point).cells m_first point
  else ex σ m_first point ∧ ex (ev σ m_first point).cells m_second point

/-- Every call a `miss` handler makes is exact (`ex`), each on the cells the calls
before it left. -/
def cached_kind.exact_miss (right_first : Bool)
    (ev : List (cached F) → Nat → F → outcome F) (ex : List (cached F) → Nat → F → Prop) :
    cached_kind F → F → List (cached F) → Prop
  | .term_inv m_inv, point, σ => ex σ m_inv point
  | .term_add m_first m_second, point, σ =>
    exact_pair right_first ev ex m_first m_second point σ
  | .term_sub m_first m_second, point, σ =>
    exact_pair right_first ev ex m_first m_second point σ
  | .term_mul m_first m_second, point, σ =>
    exact_pair right_first ev ex m_first m_second point σ
  | .term_div m_first m_second, point, σ =>
    exact_pair right_first ev ex m_first m_second point σ
  | .term_comp m_first m_second, point, σ =>
    ex σ m_second point ∧ ex (ev σ m_second point).cells m_first (ev σ m_second point).val.at_
  | .term_pow m_first m_second, point, σ =>
    exact_pair right_first ev ex m_first m_second point σ
  | .term_pow_d m_base _, point, σ => ex σ m_base point
  | .d_pow_term _ m_exponent, point, σ => ex σ m_exponent point
  | _, _, _ => True

/-- Every cache hit of the call `(*ptr)(point)` is exact: wherever, in the course of
the call, a `cached` object finds `point != m_point` false, its argument is the very
value stored in `m_point`, and not only one that compares equal to it. -/
def exact_in (right_first : Bool) : List (node F) → List (cached F) → Nat → F → Prop
  | n :: g, c :: σ, a, point =>
    if a < g.length then exact_in right_first g σ a point
    else if a = g.length then
      match n with
      | .cached k =>
        if double.ne point c.m_point then
          k.exact_miss right_first (call_in right_first g) (exact_in right_first g) point σ
        else point = c.m_point
      | _ => True
    else True
  | _, _, _, _ => True

/-- Every cache hit of every evaluation of a client program is exact. -/
def exact_run (right_first : Bool) : heap F → List (step F) → Prop
  | _, [] => True
  | h, .new_node n :: rest => exact_run right_first (variable_.of_new h n).1 rest
  | h, .default_ctor :: rest => exact_run right_first (variable_.mk_arg h).1 rest
  | h, .call v point :: rest =>
    exact_in right_first h.nodes h.cells v.m_term point
      ∧ exact_run right_first (v.call_in right_first h point).2 rest

/-- A client program whose evaluations are all at `1.0` and still reach one `log`
object at `0.0` and at `-0.0`: `term::variable x; term::log L;`, the difference
`x - 1`, `A = L(x - 1)` and `B = L(-(x - 1))`, then `A(1.0)` and `B(1.0)`. -/
def opposite_zeros_program : List (step Ieee) :=
  [.default_ctor, .new_node (.const_term (.num 1)), .new_node (.cached (.term_sub 0 1)),
    .new_node (.cached .log_term), .new_node (.cached (.term_comp 3 2)),
    .new_node (.cached (.term_inv 2)), .new_node (.cached (.term_comp 3 5)),
    .call ⟨4⟩ (.num 1), .call ⟨6⟩ (.num 1)]

/-- A client program with a shared product: `term::variable x;`, `P = x * x`,
`S = P + P`, then `S(2.0)`, `S(2.0)`, `P(0.0)`, `P(0.0)` and `S(3.0)`. -/
def shared_product_program : List (step Ieee) :=
  [.default_ctor, .new_node (.cached (.term_mul 0 0)), .new_node (.cached (.term_add 1 1)),
    .call ⟨2⟩ (.num 2), .call ⟨2⟩ (.num 2), .call ⟨1⟩ (.zero false), .call ⟨1⟩ (.zero false),
    .call ⟨2⟩ (.num 3)]

/-! ## Basic facts about the heap -/

section heap_lemmas

variable {F : Type}

/-- An allocated address is below the number of objects. -/
theorem node_at_lt (h : heap F) (a : Nat) (n : node F) (ha : h.node_at a = some n) :
    a < h.nodes.length := by
  unfold heap.node_at at ha
  have := List.get?_eq_some.mp ha
  obtain ⟨hlt, _⟩ := this
  simpa using hlt

/-- The state at program start is consistent. -/
theorem init_wf : (heap.init : heap F).wf :=
  ⟨rfl, fun a ha => by simp [heap.init] at ha⟩

end heap_lemmas

/-! ## Basic facts about `call` -/

section call_lemmas

variable {F : Type} [double F]

theorem call_cons_lt (n : node F) (g : List (node F)) (c : cached F) (σ : List (cached F))
    (a : Nat) (p : F) (ha : a < g.length) :
    call (n :: g) (c :: σ) a p
      = ⟨(call g σ a p).val, c :: (call g σ a p).cells, (call g σ a p).misses⟩ := by
  simp [call, ha]

theorem call_cons_const (m_value : F) (g : List (node F)) (c : cached F)
    (σ : List (cached F)) (a : Nat) (p : F) (ha : a = g.length) :
    call (node.const_term m_value :: g) (c :: σ) a p = ⟨⟨m_value, 0⟩, c :: σ, 0⟩ := by
  simp [call, ha]

theorem call_cons_arg (g : List (node F)) (c : cached F) (σ : List (cached F)) (a : Nat)
    (p : F) (ha : a = g.length) :
    call (node.arg_term :: g) (c :: σ) a p = ⟨⟨p, 1⟩, c :: σ, 0⟩ := by
  simp [call, ha]

theorem call_cons_miss (k : cached_kind F) (g : List (node F)) (c : cached F)
    (σ : List (cached F)) (a : Nat) (p : F) (ha : a = g.length)
    (hne : double.ne p c.m_point = true) :
    call (node.cached k :: g) (c :: σ) a p
      = ⟨(k.miss (call g) p σ).val, ⟨p, (k.miss (call g) p σ).val⟩ :: (k.miss (call g) p σ).cells,
          (k.miss (call g) p σ).misses + 1⟩ := by
  simp [call, ha, hne]

theorem call_cons_hit (k : cached_kind F) (g : List (node F)) (c : cached F)
    (σ : List (cached F)) (a : Nat) (p : F) (ha : a = g.length)
    (hne : double.ne p c.m_point = false) :
    call (node.cached k :: g) (c :: σ) a p = ⟨c.m_cache, c :: σ, 0⟩ := by
  simp [call, ha, hne]

/-- A freshly constructed `cached` object misses at every point. -/
theorem call_cons_fresh (k : cached_kind F) (g : List (node F)) (σ : List (cached F))
    (a : Nat) (p : F) (ha : a = g.length) :
    call (node.cached k :: g) (⟨double.nan, ⟨double.nan, double.nan⟩⟩ :: σ) a p
      = ⟨(k.miss (call g) p σ).val, ⟨p, (k.miss (call g) p σ).val⟩ :: (k.miss (call g) p σ).cells,
          (k.miss (call g) p σ).misses + 1⟩ :=
  call_cons_miss k g _ σ a p ha (double.ne_nan p)

/-- Calling an object again at the point it has just been called at, when that point
compares equal to itself, is a hit all the way: same value, same cells, no `miss`. -/
theorem call_again (g : List (node F)) (σ : List (cached F)) (a : Nat) (p : F)
    (hp : double.ne p p = false) :
    call g (call g σ a p).cells a p = ⟨(call g σ a p).val, (call g σ a p).cells, 0⟩ := by
  induction g generalizing σ with
  | nil => simp [call]
  | cons n g ih =>
    cases σ with
    | nil => simp [call]
    | cons c σ =>
      by_cases hlt : a < g.length
      · simp [call_cons_lt, hlt, ih]
      · by_cases heq : a = g.length
        · cases n with
          | const_term m => simp [call_cons_const, heq]
          | arg_term => simp [call_cons_arg, heq]
          | cached k =>
            cases hne : double.ne p c.m_point with
            | true =>
              rw [call_cons_miss k g c σ a p heq hne]
              exact call_cons_hit k g _ _ a p heq hp
            | false =>
              rw [call_cons_hit k g c σ a p heq hne]
              exact call_cons_hit k g c σ a p heq hne
        · simp [call, hlt, heq]

/-- Objects allocated after the one being called are passed over, cells included. -/
theorem call_append (pre : List (node F)) (pre' : List (cached F)) (g : List (node F))
    (σ : List (cached F)) (a : Nat) (p : F) (hlen : pre'.length = pre.length)
    (ha : a < g.length) :
    call (pre ++ g) (pre' ++ σ) a p
      = ⟨(call g σ a p).val, pre' ++ (call g σ a p).cells, (call g σ a p).misses⟩ := by
  induction pre generalizing pre' with
  | nil =>
    have : pre' = [] := List.length_eq_zero.mp hlen
    subst this
    simp
  | cons n pre ih =>
    cases pre' with
    | nil => simp at hlen
    | cons c pre' =>
      have hl : pre'.length = pre.length := by simpa using hlen
      have hlt : a < (pre ++ g).length := by simp; omega
      rw [List.cons_append, List.cons_append, call_cons_lt n _ c _ a p hlt, ih pre' hl]
      rfl

/-- Calling an `arg_term` returns `{ point, 1.0 }` and touches nothing. -/
theorem call_arg_at (g : List (node F)) (σ : List (cached F)) (a : Nat) (p : F)
    (hlen : σ.length = g.length) (ha : g.reverse.get? a = some node.arg_term) :
    call g σ a p = ⟨⟨p, 1⟩, σ, 0⟩ := by
  induction g generalizing σ with
  | nil => simp at ha
  | cons n g ih =>
    cases σ with
    | nil => simp at hlen
    | cons c σ =>
      have hl : σ.length = g.length := by simpa using hlen
      by_cases hlt : a < g.length
      · have ha2 : g.reverse.get? a = some node.arg_term := by
          have hlt2 : a < g.reverse.length := by simpa using hlt
          simpa [List.getElem?_append_left hlt2] using ha
        rw [call_cons_lt n g c σ a p hlt, ih σ hl ha2]
      · have hge : g.reverse.length ≤ a := by simpa using hlt
        have ha3 : [n].get? (a - g.length) = some node.arg_term := by
          simpa [List.getElem?_append_right hge] using ha
        have heq : a = g.length := by
          cases hd : a - g.length with
          | zero => omega
          | succ m => rw [hd] at ha3; simp at ha3
        have hn : n = node.arg_term := by
          rw [heq] at ha3; simpa using ha3
        subst hn
        exact call_cons_arg g c σ a p heq

/-- The default constructor keeps the state consistent and its handle points to an
`arg_term`. -/
theorem mk_arg_spec (h : heap F) (hw : h.wf) :
    (variable_.mk_arg h).1.wf
      ∧ (variable_.mk_arg h).1.node_at (variable_.mk_arg h).2.m_term = some node.arg_term := by
  obtain ⟨hlen, harg⟩ := hw
  unfold variable_.mk_arg arg_term.get
  cases hA : h.arg with
  | some ptr => exact ⟨⟨hlen, harg⟩, harg ptr hA⟩
  | none =>
    refine ⟨⟨by simp [heap.alloc, hlen], ?_⟩, ?_⟩
    · intro a ha
      have : h.nodes.length = a := by simpa [heap.alloc] using ha
      subst this
      simp [heap.node_at, heap.alloc]
    · simp [heap.node_at, heap.alloc]

/-- Evaluating the free variable in a consistent state. -/
theorem mk_arg_call (h : heap F) (hw : h.wf) (p : F) :
    call (variable_.mk_arg h).1.nodes (variable_.mk_arg h).1.cells
        (variable_.mk_arg h).2.m_term p
      = ⟨⟨p, 1⟩, (variable_.mk_arg h).1.cells, 0⟩ :=
  call_arg_at _ _ _ p (mk_arg_spec h hw).1.1 (mk_arg_spec h hw).2

end call_lemmas

/-! ## The idealised instance -/

section dbl_lemmas

open Dbl

@[simp] theorem Dbl.zero_def : (0 : Dbl) = fin 0 := rfl
@[simp] theorem Dbl.one_def : (1 : Dbl) = fin 1 := rfl
@[simp] theorem Dbl.ofNat_def (n : ℕ) [n.AtLeastTwo] :
    (OfNat.ofNat n : Dbl) = fin (OfNat.ofNat n) :=
  congrArg fin (Nat.cast_ofNat (R := ℝ))
@[simp] theorem Dbl.nan_def : (double.nan : Dbl) = nan := rfl
@[simp] theorem Dbl.neg_fin (x : ℝ) : -(fin x) = fin (-x) := rfl
@[simp] theorem Dbl.neg_nan : -(nan) = nan := rfl
@[simp] theorem Dbl.add_fin (x y : ℝ) : fin x + fin y = fin (x + y) := rfl
@[simp] theorem Dbl.sub_fin (x y : ℝ) : fin x - fin y = fin (x - y) := rfl
@[simp] theorem Dbl.mul_fin (x y : ℝ) : fin x * fin y = fin (x * y) := rfl
@[simp] theorem Dbl.div_fin (x y : ℝ) : fin x / fin y = fin (x / y) := rfl
@[simp] theorem Dbl.pow_fin (x y : ℝ) : double.pow (fin x) (fin y) = fin (x ^ y) := rfl
@[simp] theorem Dbl.log_fin (x : ℝ) : double.log (fin x) = fin (Real.log x) := rfl
@[simp] theorem Dbl.exp_fin (x : ℝ) : double.exp (fin x) = fin (Real.exp x) := rfl
@[simp] theorem Dbl.sin_fin (x : ℝ) : double.sin (fin x) = fin (Real.sin x) := rfl
@[simp] theorem Dbl.cos_fin (x : ℝ) : double.cos (fin x) = fin (Real.cos x) := rfl
@[simp] theorem Dbl.tan_fin (x : ℝ) : double.tan (fin x) = fin (Real.tan x) := rfl
@[simp] theorem Dbl.add_nan (x : Dbl) : x + nan = nan := by cases x <;> rfl
@[simp] theorem Dbl.nan_add (x : Dbl) : nan + x = nan := rfl
@[simp] theorem Dbl.sub_nan (x : Dbl) : x - nan = nan := by cases x <;> rfl
@[simp] theorem Dbl.nan_sub (x : Dbl) : nan - x = nan := rfl
@[simp] theorem Dbl.mul_nan (x : Dbl) : x * nan = nan := by cases x <;> rfl
@[simp] theorem Dbl.nan_mul (x : Dbl) : nan * x = nan := rfl
@[simp] theorem Dbl.div_nan (x : Dbl) : x / nan = nan := by cases x <;> rfl
@[simp] theorem Dbl.nan_div (x : Dbl) : nan / x = nan := rfl
@[simp] theorem Dbl.ne_nan_left (x : Dbl) : double.ne nan x = true := rfl
@[simp] theorem Dbl.ne_nan_right (x : Dbl) : double.ne x nan = true := by cases x <;> rfl
@[simp] theorem Dbl.ne_fin (x y : ℝ) : double.ne (fin x) (fin y) = decide (x ≠ y) := rfl

end dbl_lemmas

/-! ## The instance with the IEEE special values -/

section ieee_lemmas

theorem ieee_zero_def : (0 : Ieee) = Ieee.zero false := rfl
theorem ieee_one_def : (1 : Ieee) = Ieee.num 1 := rfl
theorem ieee_add_def (a b : Ieee) : a + b = Ieee.add a b := rfl
theorem ieee_mul_def (a b : Ieee) : a * b = Ieee.mul a b := rfl
theorem ieee_div_def (a b : Ieee) : a / b = Ieee.div a b := rfl
theorem ieee_negative_one : Ieee.negative (Ieee.num 1) = false := by simp [Ieee.negative]
@[simp] theorem ieee_ne_nan_right (x : Ieee) : double.ne x (double.nan : Ieee) = true :=
  double.ne_nan x

/-- Two different doubles compare unequal, two zeros of opposite sign apart. -/
theorem ieee_ne_of_ne (x y : Ieee) (hxy : x ≠ y) :
    double.ne x y = true ∨ ∃ s : Bool, x = Ieee.zero s ∧ y = Ieee.zero (!s) := by
  change Ieee.ne x y = true ∨ _
  cases x <;> cases y <;> simp [Ieee.ne] at hxy ⊢
  · exact hxy
  · rename_i s t
    cases s <;> cases t <;> simp at hxy ⊢
  · exact hxy

end ieee_lemmas

/-! ## Claims -/

section claims

variable {F : Type} [double F]

/-- C1: evaluating the Compose node built by `outer(inner)` at `p` returns `(w, w' * v')`,
where `(v, v')` is `inner` evaluated at `p` and `(w, w')` is `outer` evaluated (next) at
`v`; and `sin(cos)` built from the two bare elementary handles evaluates at `p` to
`(sin(cos p), cos(cos p) * -sin p)`. -/
theorem C1_compose_chain_rule (h : heap F) (outer inner : variable_) (p : F) :
    (variable_.call (outer.comp h inner).1 (outer.comp h inner).2 p).1
        = ⟨(variable_.call (inner.call h p).2 outer (inner.call h p).1.at_).1.at_,
            (variable_.call (inner.call h p).2 outer (inner.call h p).1.at_).1.prime
              * (inner.call h p).1.prime⟩
      ∧ (variable_.call (sin_cos h).1 (sin_cos h).2 p).1
        = ⟨double.sin (double.cos p), double.cos (double.cos p) * -double.sin p⟩ := by
  constructor
  · simp [variable_.call, variable_.comp, variable_.of_new, heap.alloc, call_cons_fresh,
      cached_kind.miss]
  · simp (disch := simp) [sin_cos, variable_.call, variable_.comp, variable_.of_new,
      heap.alloc, call_cons_fresh, cached_kind.miss, composite.mk, call_cons_lt]

/-- C2 (as amended): for every handle and every point `p` that compares equal to itself
(every point but NaN), evaluating at `p` twice in a row returns the same dual value both
times, and the second evaluation leaves the whole state as it was: no cell changes and
no `miss` handler runs. -/
theorem C2_second_call_hits (h : heap F) (v : variable_) (p : F)
    (hp : double.ne p p = false) :
    v.call (v.call h p).2 p = ((v.call h p).1, (v.call h p).2) := by
  simp [variable_.call, call_again _ _ _ _ hp]

/-- C2, witness: the node `-x` evaluated twice at `1.0`. -/
theorem C2_second_call_hits_witness :
    double.ne (Dbl.fin 1) (Dbl.fin 1) = false
      ∧ (neg_x Dbl).2.call ((neg_x Dbl).2.call (neg_x Dbl).1 (Dbl.fin 1)).2 (Dbl.fin 1)
        = (((neg_x Dbl).2.call (neg_x Dbl).1 (Dbl.fin 1)).1,
            ((neg_x Dbl).2.call (neg_x Dbl).1 (Dbl.fin 1)).2) :=
  ⟨by simp, C2_second_call_hits _ _ _ (by simp)⟩

/-- C2, counterexample: the memoized node `-x`, built at program start and evaluated
twice in a row at NaN, runs its `miss` handler both times, so the second evaluation
does not leave the state as the first one left it. -/
theorem C2_nan_point_misses_twice :
    ((neg_x Dbl).2.call (neg_x Dbl).1 Dbl.nan).2.misses = 1
      ∧ ((neg_x Dbl).2.call ((neg_x Dbl).2.call (neg_x Dbl).1 Dbl.nan).2 Dbl.nan).2.misses = 2
      ∧ (neg_x Dbl).2.call ((neg_x Dbl).2.call (neg_x Dbl).1 Dbl.nan).2 Dbl.nan
        ≠ (((neg_x Dbl).2.call (neg_x Dbl).1 Dbl.nan).1,
            ((neg_x Dbl).2.call (neg_x Dbl).1 Dbl.nan).2) := by
  have h1 : ((neg_x Dbl).2.call (neg_x Dbl).1 Dbl.nan).2.misses = 1 := by
    simp (disch := simp) [neg_x, variable_.call, variable_.neg, variable_.of_new,
      variable_.mk_arg, arg_term.get, heap.alloc, heap.init, call_cons_miss, call_cons_arg,
      cached_kind.miss]
  have h2 : ((neg_x Dbl).2.call ((neg_x Dbl).2.call (neg_x Dbl).1 Dbl.nan).2
      Dbl.nan).2.misses = 2 := by
    simp (disch := simp) [neg_x, variable_.call, variable_.neg, variable_.of_new,
      variable_.mk_arg, arg_term.get, heap.alloc, heap.init, call_cons_miss, call_cons_arg,
      cached_kind.miss]
  refine ⟨h1, h2, fun hEq => ?_⟩
  have h3 := congrArg (fun r => r.2.misses) hEq
  simp only [h1, h2] at h3
  exact absurd h3 (by decide)

/-- C3 (as amended): a memoized object anywhere in the heap, called at a point `p` that
compares unequal to the last-seen point (`p != m_point`), runs its `miss` handler and is
left holding exactly `p` and the result just computed (which is also what the call
returns); the first call after construction does so whatever the point is; and among
the doubles with the IEEE special values every point different from the last-seen one
compares unequal to it, unless the two are zeros of opposite sign. -/
theorem C3_miss_on_new_point (pre : List (node F)) (pre' : List (cached F))
    (k : cached_kind F) (g : List (node F)) (c : cached F) (σ : List (cached F)) (p : F)
    (hlen : pre'.length = pre.length) (hne : double.ne p c.m_point = true) :
    call (pre ++ node.cached k :: g) (pre' ++ c :: σ) g.length p
        = ⟨(k.miss (call g) p σ).val,
            pre' ++ ⟨p, (k.miss (call g) p σ).val⟩ :: (k.miss (call g) p σ).cells,
            (k.miss (call g) p σ).misses + 1⟩
      ∧ (∀ (h : heap F) (q : F),
          variable_.call (variable_.of_new h (.cached k)).1 (variable_.of_new h (.cached k)).2 q
            = ((k.miss (call h.nodes) q h.cells).val,
                ⟨node.cached k :: h.nodes,
                  ⟨q, (k.miss (call h.nodes) q h.cells).val⟩
                    :: (k.miss (call h.nodes) q h.cells).cells,
                  h.arg, h.misses + ((k.miss (call h.nodes) q h.cells).misses + 1)⟩))
      ∧ ∀ x y : Ieee, x ≠ y →
          double.ne x y = true ∨ ∃ s : Bool, x = Ieee.zero s ∧ y = Ieee.zero (!s) := by
  refine ⟨?_, ?_, ieee_ne_of_ne⟩
  · rw [call_append pre pre' _ _ _ p hlen (by simp),
      call_cons_miss k g c σ g.length p rfl hne]
  · intro h q
    simp [variable_.call, variable_.of_new, heap.alloc, call_cons_fresh]

/-- C3, witness: the object `-x` holding the point `1.0`, called at `2.0`. -/
theorem C3_miss_on_new_point_witness :
    ([] : List (cached Dbl)).length = ([] : List (node Dbl)).length
      ∧ double.ne (Dbl.fin 2) (Dbl.fin 1) = true
      ∧ call [node.cached (.term_inv 0), node.arg_term]
          [⟨Dbl.fin 1, ⟨Dbl.fin (-1), Dbl.fin (-1)⟩⟩, ⟨Dbl.nan, ⟨Dbl.nan, Dbl.nan⟩⟩] 1 (Dbl.fin 2)
        = ⟨⟨Dbl.fin (-2), Dbl.fin (-1)⟩,
            [⟨Dbl.fin 2, ⟨Dbl.fin (-2), Dbl.fin (-1)⟩⟩, ⟨Dbl.nan, ⟨Dbl.nan, Dbl.nan⟩⟩], 1⟩ := by
  have hne : double.ne (Dbl.fin 2) (Dbl.fin 1) = true := by simp
  refine ⟨rfl, hne, ?_⟩
  have h := (C3_miss_on_new_point [] [] (.term_inv 0) [node.arg_term]
    ⟨Dbl.fin 1, ⟨Dbl.fin (-1), Dbl.fin (-1)⟩⟩ [⟨Dbl.nan, ⟨Dbl.nan, Dbl.nan⟩⟩] (Dbl.fin 2)
    rfl hne).1
  simpa (disch := simp) [cached_kind.miss, call_cons_arg, value_type.neg] using h

/-- C3, counterexample: after `-x` has been evaluated at `0.0`, an evaluation at `-0.0`,
a different double, runs no `miss` handler and leaves the cell holding `0.0` and the
result stored for it: `-0.0 != 0.0` is false. -/
theorem C3_negative_zero_runs_no_miss :
    Ieee.zero true ≠ Ieee.zero false
      ∧ (neg_x_seen Ieee (Ieee.zero false)).cells
        = [⟨Ieee.zero false, ⟨Ieee.zero true, Ieee.num (-1)⟩⟩,
            ⟨Ieee.nan, ⟨Ieee.nan, Ieee.nan⟩⟩]
      ∧ (neg_x_seen Ieee (Ieee.zero false)).misses = 1
      ∧ (neg_x Ieee).2.call (neg_x_seen Ieee (Ieee.zero false)) (Ieee.zero true)
        = (⟨Ieee.zero true, Ieee.num (-1)⟩, neg_x_seen Ieee (Ieee.zero false)) := by
  have hne1 : double.ne (Ieee.zero true) (Ieee.zero false) = false := rfl
  have hneg0 : -(Ieee.zero false) = Ieee.zero true := rfl
  have hneg1 : -(1 : Ieee) = Ieee.num (-1) := rfl
  have hs : neg_x_seen Ieee (Ieee.zero false)
      = ⟨[node.cached (.term_inv 0), node.arg_term],
          [⟨Ieee.zero false, ⟨Ieee.zero true, Ieee.num (-1)⟩⟩,
            ⟨Ieee.nan, ⟨Ieee.nan, Ieee.nan⟩⟩], some 0, 1⟩ := by
    simp (disch := simp) [neg_x_seen, neg_x, variable_.call, variable_.neg,
      variable_.of_new, variable_.mk_arg, arg_term.get, heap.alloc, heap.init,
      call_cons_miss, call_cons_arg, cached_kind.miss, value_type.neg, hneg0, hneg1]
    rfl
  refine ⟨by simp, by rw [hs], by rw [hs], ?_⟩
  rw [hs]
  simp only [variable_.call, neg_x, variable_.neg, variable_.of_new, heap.alloc]
  rw [call_cons_hit (.term_inv _) _ _ _ _ (Ieee.zero true) (by simp [variable_.mk_arg,
    arg_term.get, heap.alloc, heap.init]) hne1]
  rfl

/-- C4: the tree `x * exp(x)` over the free variable evaluates at every real point `p` to
value `p * e^p` and derivative `e^p * (1 + p)`. -/
theorem C4_product_rule (h : heap Dbl) (hw : h.wf) (p : ℝ) :
    (variable_.call (main_d h).1 (main_d h).2 (Dbl.fin p)).1
      = ⟨Dbl.fin (p * Real.exp p), Dbl.fin (Real.exp p * (1 + p))⟩ := by
  have hx := mk_arg_call h hw
  have hlt := node_at_lt _ _ _ (mk_arg_spec h hw).2
  simp only [main_d, term.exp, composite.of_var, composite.mk, variable_.mul,
    variable_.comp, variable_.of_new, heap.alloc, variable_.call]
  generalize variable_.mk_arg h = x at hx hlt
  simp (disch := first | omega | (simp; done) | (simp; omega)) [call_cons_miss, call_cons_lt,
    cached_kind.miss, hx, value_type.mul]
  ring

/-- C4, witness: `x * exp(x)` built at program start and evaluated at `1.0`. -/
theorem C4_product_rule_witness :
    (heap.init : heap Dbl).wf
      ∧ (variable_.call (main_d (heap.init : heap Dbl)).1 (main_d (heap.init : heap Dbl)).2
          (Dbl.fin 1)).1
        = ⟨Dbl.fin (1 * Real.exp 1), Dbl.fin (Real.exp 1 * (1 + 1))⟩ :=
  ⟨init_wf, C4_product_rule heap.init init_wf 1⟩

/-- C5: the tree `x ^ x`, both operands the free-variable singleton, evaluates at every
real point `p > 0` to value `p^p` and derivative `p^p * (ln p + 1)`; at `2.0` that is
value `4` and derivative `4 * (ln 2 + 1)`. -/
theorem C5_x_pow_x (h : heap Dbl) (hw : h.wf) (p : ℝ) (hp : 0 < p) :
    (variable_.call (main_a h).1 (main_a h).2 (Dbl.fin p)).1
        = ⟨Dbl.fin (p ^ p), Dbl.fin (p ^ p * (Real.log p + 1))⟩
      ∧ (variable_.call (main_a h).1 (main_a h).2 (Dbl.fin 2)).1
        = ⟨Dbl.fin 4, Dbl.fin (4 * (Real.log 2 + 1))⟩ := by
  have hx := mk_arg_call h hw
  have hlt := node_at_lt _ _ _ (mk_arg_spec h hw).2
  simp only [main_a, variable_.pow, variable_.of_new, heap.alloc, variable_.call]
  generalize variable_.mk_arg h = x at hx hlt
  have h22 : (2 : ℝ) ^ (2 : ℝ) = 4 := by
    rw [show (2 : ℝ) = ((2 : ℕ) : ℝ) by norm_num, Real.rpow_natCast]
    norm_num
  have hp0 : p ≠ 0 := ne_of_gt hp
  constructor
  · simp (disch := first | omega | (simp; done) | (simp; omega)) [call_cons_miss,
      call_cons_lt, cached_kind.miss, hx, value_type.pow, div_self hp0]
  · simp (disch := first | omega | (simp; done) | (simp; omega)) [call_cons_miss,
      call_cons_lt, cached_kind.miss, hx, value_type.pow, h22]

/-- C5, witness: `x ^ x` built at program start and evaluated at `3.0`. -/
theorem C5_x_pow_x_witness :
    (heap.init : heap Dbl).wf ∧ (0 : ℝ) < 3
      ∧ (variable_.call (main_a (heap.init : heap Dbl)).1 (main_a (heap.init : heap Dbl)).2
          (Dbl.fin 3)).1
        = ⟨Dbl.fin ((3 : ℝ) ^ (3 : ℝ)), Dbl.fin ((3 : ℝ) ^ (3 : ℝ) * (Real.log 3 + 1))⟩ :=
  ⟨init_wf, by norm_num, (C5_x_pow_x heap.init init_wf 3 (by norm_num)).1⟩

/-- Where the factories compose (the part of C6 the code meets): for a handle `var` to
an existing object whose static type is `term::variable` or another factory's type, each
factory `f(var)` allocates the one-node tree of `f` and a Compose node with it as outer
and `var` as inner, and returns the handle of that Compose node; evaluated at `p` it
gives `(f(v), f'(v) * v')` in the closed form of `f`, where `(v, v')` is `var` evaluated
at `p`. Called on an expression of its own type, `f(var)` is a copy: the handle of
`var` itself, nothing allocated. -/
theorem C6_factories_compose (h : heap F) (var : variable_) (p : F)
    (hv : var.m_term < h.nodes.length) :
    (∀ (comp_term : elementary) (arg_type : handle_type),
        arg_type ≠ handle_type.composite comp_term →
          composite.construct h comp_term arg_type var
            = composite.of_var h (comp_term.kind F) var)
      ∧ (∀ comp_term : elementary,
          composite.construct h comp_term (handle_type.composite comp_term) var = (h, var))
      ∧ (∀ k : cached_kind F,
        (composite.of_var h k var).1.nodes
            = node.cached (.term_comp h.nodes.length var.m_term) :: node.cached k :: h.nodes
          ∧ (composite.of_var h k var).2 = ⟨h.nodes.length + 1⟩)
      ∧ (variable_.call (exp h var).1 (exp h var).2 p).1
        = ⟨double.exp (var.call h p).1.at_,
            double.exp (var.call h p).1.at_ * (var.call h p).1.prime⟩
      ∧ (variable_.call (log h var).1 (log h var).2 p).1
        = ⟨double.log (var.call h p).1.at_, 1 / (var.call h p).1.at_ * (var.call h p).1.prime⟩
      ∧ (variable_.call (sin h var).1 (sin h var).2 p).1
        = ⟨double.sin (var.call h p).1.at_,
            double.cos (var.call h p).1.at_ * (var.call h p).1.prime⟩
      ∧ (variable_.call (cos h var).1 (cos h var).2 p).1
        = ⟨double.cos (var.call h p).1.at_,
            -double.sin (var.call h p).1.at_ * (var.call h p).1.prime⟩
      ∧ (variable_.call (tan h var).1 (tan h var).2 p).1
        = ⟨double.tan (var.call h p).1.at_,
            (1 + double.tan (var.call h p).1.at_ * double.tan (var.call h p).1.at_)
              * (var.call h p).1.prime⟩ := by
  refine ⟨?_, ?_, fun k => ⟨rfl, rfl⟩, ?_, ?_, ?_, ?_, ?_⟩
  · intro comp_term arg_type hne
    cases arg_type with
    | base => rfl
    | composite other =>
      have hoc : other ≠ comp_term := fun hEq => hne (by rw [hEq])
      simp [composite.construct, hoc]
  · intro comp_term
    simp [composite.construct]
  all_goals
    simp (disch := first | omega | (simp; done) | (simp; omega)) [exp, log, sin, cos, tan,
      composite.of_var, composite.mk, variable_.comp, variable_.of_new, heap.alloc,
      variable_.call, call_cons_fresh, call_cons_lt, cached_kind.miss, hv]

/-- Instance: `term::exp(exp)` for the handle `exp` of `main`, a `term::variable`
holding `exp(x)`: the factory applied to a handle it produced itself, evaluated at `0.0`. -/
theorem C6_factories_compose_witness :
    (exp_exp_x Dbl).2.m_term < (exp_exp_x Dbl).1.nodes.length
      ∧ composite.construct (exp_exp_x Dbl).1 .exp_term .base (exp_exp_x Dbl).2
        = exp (exp_exp_x Dbl).1 (exp_exp_x Dbl).2
      ∧ (variable_.call (exp (exp_exp_x Dbl).1 (exp_exp_x Dbl).2).1
          (exp (exp_exp_x Dbl).1 (exp_exp_x Dbl).2).2 (Dbl.fin 0)).1
        = ⟨double.exp ((exp_exp_x Dbl).2.call (exp_exp_x Dbl).1 (Dbl.fin 0)).1.at_,
            double.exp ((exp_exp_x Dbl).2.call (exp_exp_x Dbl).1 (Dbl.fin 0)).1.at_
              * ((exp_exp_x Dbl).2.call (exp_exp_x Dbl).1 (Dbl.fin 0)).1.prime⟩ := by
  have hv : (exp_exp_x Dbl).2.m_term < (exp_exp_x Dbl).1.nodes.length := by
    simp [exp_exp_x, exp, composite.of_var, composite.mk, variable_.comp, variable_.of_new,
      heap.alloc]
  exact ⟨hv,
    (C6_factories_compose (exp_exp_x Dbl).1 (exp_exp_x Dbl).2 (Dbl.fin 0) hv).1
      .exp_term .base (by simp),
    (C6_factories_compose (exp_exp_x Dbl).1 (exp_exp_x Dbl).2 (Dbl.fin 0) hv).2.2.2.1⟩

/-- C6, at the failing input: `term::exp(term::exp(x))` written directly is `exp(x)`.
The outer call copies its argument, so no second Compose node exists, and at `0.0` the
handle evaluates to `(1, 1)`, the value `(v, v')` of its argument `exp(x)`, not to
`(exp(v), exp(v) * v') = (exp(1), exp(1) * 1)`. -/
theorem C6_same_factory_argument_is_copied :
    exp_of_exp_x Dbl = exp_exp_x Dbl
      ∧ (exp_of_exp_x Dbl).1.nodes
        = [node.cached (.term_comp 1 0), node.cached .exp_term, node.arg_term]
      ∧ ((exp_exp_x Dbl).2.call (exp_exp_x Dbl).1 (Dbl.fin 0)).1 = ⟨Dbl.fin 1, Dbl.fin 1⟩
      ∧ (variable_.call (exp_of_exp_x Dbl).1 (exp_of_exp_x Dbl).2 (Dbl.fin 0)).1
        = ⟨Dbl.fin 1, Dbl.fin 1⟩
      ∧ (variable_.call (exp_of_exp_x Dbl).1 (exp_of_exp_x Dbl).2 (Dbl.fin 0)).1
        ≠ ⟨Dbl.fin (Real.exp 1), Dbl.fin (Real.exp 1 * 1)⟩ := by
  have h0 : exp_of_exp_x Dbl = exp_exp_x Dbl := by
    simp [exp_of_exp_x, exp_exp_x, composite.construct, exp, elementary.kind]
  have h1 : ((exp_exp_x Dbl).2.call (exp_exp_x Dbl).1 (Dbl.fin 0)).1
      = ⟨Dbl.fin 1, Dbl.fin 1⟩ := by
    simp (disch := first | omega | (simp; done) | (simp; omega)) [exp_exp_x, exp,
      composite.of_var, composite.mk, variable_.comp, variable_.of_new, variable_.mk_arg,
      arg_term.get, heap.alloc, heap.init, variable_.call, call_cons_miss, call_cons_lt,
      call_cons_arg, cached_kind.miss]
  refine ⟨h0, ?_, h1, by rw [h0]; exact h1, ?_⟩
  · rw [h0]
    simp [exp_exp_x, exp, composite.of_var, composite.mk, variable_.comp, variable_.of_new,
      variable_.mk_arg, arg_term.get, heap.alloc, heap.init]
  · rw [h0, h1]
    intro hEq
    have h3 := congrArg (fun v => v.at_) hEq
    simp only [Dbl.fin.injEq] at h3
    have h4 := Real.add_one_lt_exp (one_ne_zero : (1 : ℝ) ≠ 0)
    linarith

/-- C7: the handle `y`, default-constructed and then rebound by `y = -(y ^ 2)`, evaluates
at every real point `p` to `(-(p^2), -2*p)`, hence to `(-1, -2)` at `1.0`; the rebinding
allocates a `term_pow_d` with exponent `2` over the old variable object and a `term_inv`
over that, each pointing to an object allocated before it. -/
theorem C7_rebound_handle (h : heap Dbl) (hw : h.wf) (p : ℝ) :
    (variable_.call (main_y h).1 (main_y h).2 (Dbl.fin p)).1
        = ⟨Dbl.fin (-(p ^ 2)), Dbl.fin (-2 * p)⟩
      ∧ (variable_.call (main_y h).1 (main_y h).2 (Dbl.fin 1)).1 = ⟨Dbl.fin (-1), Dbl.fin (-2)⟩
      ∧ (main_y h).1.nodes
          = node.cached (.term_inv (variable_.mk_arg h).1.nodes.length)
            :: node.cached (.term_pow_d (variable_.mk_arg h).2.m_term 2)
            :: (variable_.mk_arg h).1.nodes
      ∧ (variable_.mk_arg h).1.node_at (variable_.mk_arg h).2.m_term = some node.arg_term
      ∧ (variable_.mk_arg h).2.m_term < (variable_.mk_arg h).1.nodes.length
      ∧ (main_y h).2.m_term = (variable_.mk_arg h).1.nodes.length + 1 := by
  have hx := mk_arg_call h hw
  have hlt := node_at_lt _ _ _ (mk_arg_spec h hw).2
  refine ⟨?_, ?_, rfl, (mk_arg_spec h hw).2, hlt, rfl⟩
  · simp only [main_y, variable_.neg, variable_.pow_d, variable_.of_new, heap.alloc,
      variable_.call]
    generalize variable_.mk_arg h = x at hx hlt
    simp (disch := first | omega | (simp; done) | (simp; omega)) [call_cons_miss,
      call_cons_lt, cached_kind.miss, hx, value_type.neg, value_type.pow_d]
    constructor
    · norm_num
      ring
    · norm_num
  · simp only [main_y, variable_.neg, variable_.pow_d, variable_.of_new, heap.alloc,
      variable_.call]
    generalize variable_.mk_arg h = x at hx hlt
    simp (disch := first | omega | (simp; done) | (simp; omega)) [call_cons_miss,
      call_cons_lt, cached_kind.miss, hx, value_type.neg, value_type.pow_d]

/-- C7, witness: the rebound handle built at program start and evaluated at `1.0`. -/
theorem C7_rebound_handle_witness :
    (heap.init : heap Dbl).wf
      ∧ (variable_.call (main_y (heap.init : heap Dbl)).1 (main_y (heap.init : heap Dbl)).2
          (Dbl.fin 1)).1
        = ⟨Dbl.fin (-1), Dbl.fin (-2)⟩ :=
  ⟨init_wf, (C7_rebound_handle heap.init init_wf 1).2.1⟩

/-- C8: the tree `b = (2 * C) ^ exp(x)` with `C = 5.0` evaluates at every real point `p`
(so at `-0.5`) to the pair the dual-exponent power rule returns for base `(10, 0)` and
exponent `(exp p, exp p)`, which is `(r, r * exp p * ln 10)` with `r = 10 ^ exp p`; the
product `2 * C` evaluates to `(10, 0)`. -/
theorem C8_scaled_constant_power (h : heap Dbl) (hw : h.wf) (p : ℝ) :
    (variable_.call (main_b h).1 (main_b h).2 (Dbl.fin p)).1
        = value_type.pow ⟨Dbl.fin 10, Dbl.fin 0⟩ ⟨Dbl.fin (Real.exp p), Dbl.fin (Real.exp p)⟩
      ∧ value_type.pow ⟨Dbl.fin 10, Dbl.fin 0⟩ ⟨Dbl.fin (Real.exp p), Dbl.fin (Real.exp p)⟩
        = ⟨Dbl.fin ((10 : ℝ) ^ Real.exp p),
            Dbl.fin ((10 : ℝ) ^ Real.exp p * Real.exp p * Real.log 10)⟩
      ∧ (variable_.call (main_b h).1 (main_b h).2 (Dbl.fin (-0.5))).1
        = value_type.pow ⟨Dbl.fin 10, Dbl.fin 0⟩
            ⟨Dbl.fin (Real.exp (-0.5)), Dbl.fin (Real.exp (-0.5))⟩
      ∧ (variable_.call (main_2C h).1 (main_2C h).2.2 (Dbl.fin p)).1
        = ⟨Dbl.fin 10, Dbl.fin 0⟩ := by
  have hx := mk_arg_call h hw
  have hlt := node_at_lt _ _ _ (mk_arg_spec h hw).2
  have key : ∀ q : ℝ, (variable_.call (main_b h).1 (main_b h).2 (Dbl.fin q)).1
      = value_type.pow ⟨Dbl.fin 10, Dbl.fin 0⟩
          ⟨Dbl.fin (Real.exp q), Dbl.fin (Real.exp q)⟩ := by
    intro q
    simp only [main_b, main_2C, term.exp, composite.of_var, composite.mk, variable_.pow,
      variable_.mul, variable_.comp, variable_.of_double, variable_.of_new, heap.alloc,
      variable_.call]
    generalize variable_.mk_arg h = x at hx hlt
    simp (disch := first | omega | (simp; done) | (simp; omega)) [call_cons_miss,
      call_cons_lt, call_cons_const, cached_kind.miss, hx, value_type.mul, value_type.pow]
    norm_num
  refine ⟨key p, ?_, key (-0.5), ?_⟩
  · simp [value_type.pow]
    ring
  · simp only [main_2C, term.exp, composite.of_var, composite.mk, variable_.mul,
      variable_.comp, variable_.of_double, variable_.of_new, heap.alloc, variable_.call]
    simp (disch := first | omega | (simp; done) | (simp; omega)) [call_cons_miss,
      call_cons_lt, call_cons_const, cached_kind.miss, value_type.mul]
    norm_num

/-- C8, witness: `b` built at program start and evaluated at `-0.5`. -/
theorem C8_scaled_constant_power_witness :
    (heap.init : heap Dbl).wf
      ∧ (variable_.call (main_b (heap.init : heap Dbl)).1 (main_b (heap.init : heap Dbl)).2
          (Dbl.fin (-0.5))).1
        = value_type.pow ⟨Dbl.fin 10, Dbl.fin 0⟩
            ⟨Dbl.fin (Real.exp (-0.5)), Dbl.fin (Real.exp (-0.5))⟩ :=
  ⟨init_wf, (C8_scaled_constant_power heap.init init_wf (-0.5)).1⟩

/-- C9: `divide(a, b)` is `(a.value*b.value, a.derivative*b.value + b.derivative*a.value)`,
the very pair `multiply(a, b)` returns, and a Divide node and a Multiply node built over
the same two children evaluate to the same dual value at every point. -/
theorem C9_divide_is_multiply (a b : value_type F) (h : heap F) (one other : variable_)
    (p : F) :
    a.div b = ⟨a.at_ * b.at_, a.prime * b.at_ + b.prime * a.at_⟩
      ∧ a.div b = a.mul b
      ∧ (variable_.call (variable_.div h one other).1 (variable_.div h one other).2 p).1
        = (variable_.call (variable_.mul h one other).1 (variable_.mul h one other).2 p).1 := by
  refine ⟨rfl, rfl, ?_⟩
  simp [variable_.call, variable_.div, variable_.mul, variable_.of_new, heap.alloc,
    call_cons_fresh, cached_kind.miss, value_type.div, value_type.mul]

/-- C10: the node built by `k ^ t` for a literal base `k` evaluates at `p` to
`(k^e, k^e * e')`, where `(e, e')` is `t` evaluated at `p`; no `ln(k)` factor appears. -/
theorem C10_literal_base_power (h : heap F) (k : F) (t : variable_) (p : F) :
    (variable_.call (variable_.d_pow h k t).1 (variable_.d_pow h k t).2 p).1
      = ⟨double.pow k (t.call h p).1.at_,
          double.pow k (t.call h p).1.at_ * (t.call h p).1.prime⟩ := by
  simp [variable_.call, variable_.d_pow, variable_.of_new, heap.alloc, call_cons_fresh,
    cached_kind.miss]

end claims

/-! ## Leaves: elementary functions, constants, the free variable -/

section leaves

variable {F : Type} [double F]

/-- C11: each bare elementary node returns the closed-form pair of its function, and the
second component is the derivative of the first: `exp` gives `(e^p, e^p)`, `sin` gives
`(sin p, cos p)`, `cos` gives `(cos p, -sin p)` at every real `p`; `log` gives
`(ln q, 1/q)` at `q > 0`; `tan` gives `(tan r, 1 + tan(r)^2)` where `cos r` is non-zero. -/
theorem C11_elementary_nodes (h : heap Dbl) (p q r : ℝ) (hq : 0 < q)
    (hr : Real.cos r ≠ 0) :
    ((variable_.call (composite.mk h .exp_term).1 (composite.mk h .exp_term).2 (Dbl.fin p)).1
          = ⟨Dbl.fin (Real.exp p), Dbl.fin (Real.exp p)⟩
        ∧ HasDerivAt Real.exp (Real.exp p) p)
      ∧ ((variable_.call (composite.mk h .log_term).1 (composite.mk h .log_term).2
            (Dbl.fin q)).1 = ⟨Dbl.fin (Real.log q), Dbl.fin (1 / q)⟩
        ∧ HasDerivAt Real.log (1 / q) q)
      ∧ ((variable_.call (composite.mk h .sin_term).1 (composite.mk h .sin_term).2
            (Dbl.fin p)).1 = ⟨Dbl.fin (Real.sin p), Dbl.fin (Real.cos p)⟩
        ∧ HasDerivAt Real.sin (Real.cos p) p)
      ∧ ((variable_.call (composite.mk h .cos_term).1 (composite.mk h .cos_term).2
            (Dbl.fin p)).1 = ⟨Dbl.fin (Real.cos p), Dbl.fin (-Real.sin p)⟩
        ∧ HasDerivAt Real.cos (-Real.sin p) p)
      ∧ ((variable_.call (composite.mk h .tan_term).1 (composite.mk h .tan_term).2
            (Dbl.fin r)).1 = ⟨Dbl.fin (Real.tan r), Dbl.fin (1 + Real.tan r * Real.tan r)⟩
        ∧ HasDerivAt Real.tan (1 + Real.tan r * Real.tan r) r) := by
  have hq0 : q ≠ 0 := ne_of_gt hq
  have htan : 1 + Real.tan r * Real.tan r = 1 / Real.cos r ^ 2 := by
    rw [Real.tan_eq_sin_div_cos]
    field_simp
    nlinarith [Real.sin_sq_add_cos_sq r]
  refine ⟨⟨?_, Real.hasDerivAt_exp p⟩, ⟨?_, ?_⟩, ⟨?_, Real.hasDerivAt_sin p⟩,
    ⟨?_, Real.hasDerivAt_cos p⟩, ⟨?_, ?_⟩⟩
  · simp [variable_.call, composite.mk, variable_.of_new, heap.alloc, call_cons_miss,
      cached_kind.miss]
  · simp [variable_.call, composite.mk, variable_.of_new, heap.alloc, call_cons_miss,
      cached_kind.miss]
  · simpa [one_div] using Real.hasDerivAt_log hq0
  · simp [variable_.call, composite.mk, variable_.of_new, heap.alloc, call_cons_miss,
      cached_kind.miss]
  · simp [variable_.call, composite.mk, variable_.of_new, heap.alloc, call_cons_miss,
      cached_kind.miss]
  · simp [variable_.call, composite.mk, variable_.of_new, heap.alloc, call_cons_miss,
      cached_kind.miss]
  · rw [htan]
    exact Real.hasDerivAt_tan hr

/-- C11, witness: the five elementary nodes built at program start, `log` at `1.0`,
`tan` at `0.0`. -/
theorem C11_elementary_nodes_witness :
    (0 : ℝ) < 1 ∧ Real.cos 0 ≠ 0
      ∧ (variable_.call (composite.mk (heap.init : heap Dbl) .log_term).1
          (composite.mk (heap.init : heap Dbl) .log_term).2 (Dbl.fin 1)).1
        = ⟨Dbl.fin (Real.log 1), Dbl.fin (1 / 1)⟩
      ∧ HasDerivAt Real.tan (1 + Real.tan 0 * Real.tan 0) 0 :=
  ⟨by norm_num, by simp,
    (C11_elementary_nodes heap.init 0 1 0 (by norm_num) (by simp)).2.1.1,
    (C11_elementary_nodes heap.init 0 1 0 (by norm_num) (by simp)).2.2.2.2.2⟩

/-- C13: the handle constructed from a constant `c` evaluates at every point `p` to
`(c, 0.0)`, whatever `p` is, and leaves the state as it was. -/
theorem C13_constant (h : heap F) (c p : F) :
    (variable_.call (variable_.of_double h c).1 (variable_.of_double h c).2 p).1 = ⟨c, 0⟩
      ∧ (variable_.call (variable_.of_double h c).1 (variable_.of_double h c).2 p).2
        = (variable_.of_double h c).1 := by
  simp [variable_.call, variable_.of_double, variable_.of_new, heap.alloc, call_cons_const]

/-- C14: a default-constructed handle, the free variable, evaluates at every point `p`
to `(p, 1.0)`. -/
theorem C14_free_variable (h : heap F) (hw : h.wf) (p : F) :
    (variable_.call (variable_.mk_arg h).1 (variable_.mk_arg h).2 p).1 = ⟨p, 1⟩ := by
  simp [variable_.call, mk_arg_call h hw]

/-- C14, witness: the free variable at program start, evaluated at `3.0`. -/
theorem C14_free_variable_witness :
    (heap.init : heap Dbl).wf
      ∧ (variable_.call (variable_.mk_arg (heap.init : heap Dbl)).1
          (variable_.mk_arg (heap.init : heap Dbl)).2 (Dbl.fin 3)).1 = ⟨Dbl.fin 3, 1⟩ :=
  ⟨init_wf, C14_free_variable heap.init init_wf (Dbl.fin 3)⟩

end leaves

/-! ## Division and the memoizing wrapper -/

section wrapper

variable {F : Type} [double F]

/-- C15, the code at the failing input: `divide` of `(1, 0)` by `(0, 0)` is `(0, 0)`, and
the Divide node over the constants `1.0` and `0.0` evaluates to `(0, 0)`: the value is
the finite product `1 * 0`, in the idealised doubles and with the IEEE zeros alike. -/
theorem C15_divide_by_zero_is_product :
    value_type.div (⟨Dbl.fin 1, Dbl.fin 0⟩ : value_type Dbl) ⟨Dbl.fin 0, Dbl.fin 0⟩
        = ⟨Dbl.fin 0, Dbl.fin 0⟩
      ∧ (variable_.call (one_div_zero Dbl).1 (one_div_zero Dbl).2 (Dbl.fin 3)).1
        = ⟨Dbl.fin 0, Dbl.fin 0⟩
      ∧ value_type.div (⟨Ieee.num 1, Ieee.zero false⟩ : value_type Ieee)
          ⟨Ieee.zero false, Ieee.zero false⟩ = ⟨Ieee.zero false, Ieee.zero false⟩
      ∧ (variable_.call (one_div_zero Ieee).1 (one_div_zero Ieee).2 (Ieee.num 3)).1
        = ⟨Ieee.zero false, Ieee.zero false⟩ := by
  have hv : value_type.div (⟨Ieee.num 1, Ieee.zero false⟩ : value_type Ieee)
      ⟨Ieee.zero false, Ieee.zero false⟩ = ⟨Ieee.zero false, Ieee.zero false⟩ := by
    simp [value_type.div, ieee_mul_def, ieee_add_def, Ieee.mul, Ieee.add,
      ieee_negative_one]
  refine ⟨?_, ?_, hv, ?_⟩
  · simp [value_type.div]
  · simp (disch := first | omega | (simp; done) | (simp; omega)) [one_div_zero,
      variable_.div, variable_.of_double, variable_.of_new, heap.alloc, heap.init,
      variable_.call, call_cons_miss, call_cons_lt, call_cons_const, cached_kind.miss,
      value_type.div]
  · simp (disch := first | omega | (simp; done) | (simp; omega)) [one_div_zero,
      variable_.div, variable_.of_double, variable_.of_new, heap.alloc, heap.init,
      variable_.call, call_cons_miss, call_cons_lt, call_cons_const, cached_kind.miss,
      ieee_zero_def, ieee_one_def, hv]

/-- C16 (as amended): a memoized object anywhere in the heap, called at `point`,
recomputes through `miss`, stores `(point, result)` and returns it when `point` differs
from (`!=`) the last-seen point; otherwise it returns the stored result and changes
nothing. -/
theorem C16_wrapper_contract (pre : List (node F)) (pre' : List (cached F))
    (k : cached_kind F) (g : List (node F)) (c : cached F) (σ : List (cached F)) (p : F)
    (hlen : pre'.length = pre.length) :
    call (pre ++ node.cached k :: g) (pre' ++ c :: σ) g.length p
      = if double.ne p c.m_point = true then
          ⟨(k.miss (call g) p σ).val,
            pre' ++ ⟨p, (k.miss (call g) p σ).val⟩ :: (k.miss (call g) p σ).cells,
            (k.miss (call g) p σ).misses + 1⟩
        else ⟨c.m_cache, pre' ++ c :: σ, 0⟩ := by
  rw [call_append pre pre' _ _ _ p hlen (by simp)]
  cases hne : double.ne p c.m_point with
  | true => simp [call_cons_miss k g c σ g.length p rfl hne]
  | false => simp [call_cons_hit k g c σ g.length p rfl hne]

/-- C16, witness: the object `-x` holding the point `1.0`, called at `1.0` again. -/
theorem C16_wrapper_contract_witness :
    ([] : List (cached Dbl)).length = ([] : List (node Dbl)).length
      ∧ call [node.cached (.term_inv 0), node.arg_term]
          [⟨Dbl.fin 1, ⟨Dbl.fin (-1), Dbl.fin (-1)⟩⟩, ⟨Dbl.nan, ⟨Dbl.nan, Dbl.nan⟩⟩] 1 (Dbl.fin 1)
        = ⟨⟨Dbl.fin (-1), Dbl.fin (-1)⟩,
            [⟨Dbl.fin 1, ⟨Dbl.fin (-1), Dbl.fin (-1)⟩⟩, ⟨Dbl.nan, ⟨Dbl.nan, Dbl.nan⟩⟩], 0⟩ := by
  refine ⟨rfl, ?_⟩
  have h := C16_wrapper_contract [] [] (.term_inv 0) [node.arg_term]
    ⟨Dbl.fin 1, ⟨Dbl.fin (-1), Dbl.fin (-1)⟩⟩ [⟨Dbl.nan, ⟨Dbl.nan, Dbl.nan⟩⟩] (Dbl.fin 1) rfl
  simpa using h

/-- C16, counterexample: after `-x` has been evaluated at `1.0`, evaluating it at `1.0`
again (the point equals the last-seen point) runs no `miss` handler, and evaluating it
at `2.0` (the point differs) returns `(-2, -1)`, not the stored `(-1, -1)`. -/
theorem C16_equal_point_hits_new_point_recomputes :
    ((neg_x Dbl).2.call (neg_x Dbl).1 (Dbl.fin 1)).1 = ⟨Dbl.fin (-1), Dbl.fin (-1)⟩
      ∧ ((neg_x Dbl).2.call (neg_x_seen Dbl (Dbl.fin 1)) (Dbl.fin 1)).2.misses
        = (neg_x_seen Dbl (Dbl.fin 1)).misses
      ∧ ((neg_x Dbl).2.call (neg_x_seen Dbl (Dbl.fin 1)) (Dbl.fin 2)).1
        = ⟨Dbl.fin (-2), Dbl.fin (-1)⟩
      ∧ ((neg_x Dbl).2.call (neg_x_seen Dbl (Dbl.fin 1)) (Dbl.fin 2)).1
        ≠ ((neg_x Dbl).2.call (neg_x Dbl).1 (Dbl.fin 1)).1 := by
  have h1 : ((neg_x Dbl).2.call (neg_x Dbl).1 (Dbl.fin 1)).1
      = ⟨Dbl.fin (-1), Dbl.fin (-1)⟩ := by
    simp (disch := simp) [neg_x, variable_.call, variable_.neg, variable_.of_new,
      variable_.mk_arg, arg_term.get, heap.alloc, heap.init, call_cons_miss, call_cons_arg,
      cached_kind.miss, value_type.neg]
  have h2 : ((neg_x Dbl).2.call (neg_x_seen Dbl (Dbl.fin 1)) (Dbl.fin 2)).1
      = ⟨Dbl.fin (-2), Dbl.fin (-1)⟩ := by
    simp (disch := simp) [neg_x_seen, neg_x, variable_.call, variable_.neg,
      variable_.of_new, variable_.mk_arg, arg_term.get, heap.alloc, heap.init,
      call_cons_miss, call_cons_arg, cached_kind.miss, value_type.neg]
  refine ⟨h1, ?_, h2, ?_⟩
  · simp (disch := simp) [neg_x_seen, neg_x, variable_.call, variable_.neg,
      variable_.of_new, variable_.mk_arg, arg_term.get, heap.alloc, heap.init,
      call_cons_miss, call_cons_hit, call_cons_arg, cached_kind.miss, value_type.neg]
  · rw [h1, h2]
    intro hEq
    have h3 := congrArg (fun v => v.at_) hEq
    simp only [Dbl.fin.injEq] at h3
    norm_num at h3

end wrapper

/-! ## Dual arithmetic and calculus -/

section taylor

/-- C12 (as amended): if `a` holds `(f(p), f'(p))` and `b` holds `(g(p), g'(p))`, then
`negate(a)`, `add(a,b)`, `subtract(a,b)`, `multiply(a,b)` hold the value and derivative
at `p` of `-f`, `f+g`, `f-g`, `f*g`; `power(a,b)` does so for `f^g` when `f(p) > 0`, and
`power(a,k)` for `f^k` when `f(p) > 0`, or `f(p) < 0` and `k` is a whole number, or
`f(p) = 0` and `k ≥ 1`. -/
theorem C12_taylor_preserved (f g : ℝ → ℝ) (p k : ℝ) (a b : value_type Dbl)
    (ha : a.taylor f p) (hb : b.taylor g p) :
    a.neg.taylor (fun x => -f x) p
      ∧ (a.add b).taylor (fun x => f x + g x) p
      ∧ (a.sub b).taylor (fun x => f x - g x) p
      ∧ (a.mul b).taylor (fun x => f x * g x) p
      ∧ (0 < f p → (a.pow b).taylor (fun x => f x ^ g x) p)
      ∧ (0 < f p ∨ (f p < 0 ∧ ∃ n : ℤ, k = n) ∨ (f p = 0 ∧ 1 ≤ k) →
          (a.pow_d (Dbl.fin k)).taylor (fun x => f x ^ k) p) := by
  obtain ⟨f', rfl, hf⟩ := ha
  obtain ⟨g', rfl, hg⟩ := hb
  refine ⟨⟨-f', by simp [value_type.neg], hf.neg⟩,
    ⟨f' + g', by simp [value_type.add], hf.add hg⟩,
    ⟨f' - g', by simp [value_type.sub], hf.sub hg⟩,
    ⟨f' * g p + g' * f p, by simp [value_type.mul], ?_⟩, ?_, ?_⟩
  · have := hf.mul hg
    convert this using 1
    ring
  · intro hpos
    refine ⟨f p ^ g p * (g' * Real.log (f p) + f' * g p / f p), by simp [value_type.pow], ?_⟩
    have := hf.rpow hg hpos
    convert this using 1
    rw [Real.rpow_sub_one (ne_of_gt hpos)]
    field_simp
    ring
  · intro hdom
    have hk : f p ≠ 0 ∨ 1 ≤ k := by
      rcases hdom with h1 | ⟨h1, _⟩ | ⟨_, h1⟩
      · exact Or.inl (ne_of_gt h1)
      · exact Or.inl (ne_of_lt h1)
      · exact Or.inr h1
    refine ⟨k * f p ^ (k - 1) * f', ?_, ?_⟩
    · have hval : f p ^ (k - 1) * f p = f p ^ k := by
        by_cases h0 : f p = 0
        · have hk1 : 1 ≤ k := hk.resolve_left (fun hne => hne h0)
          have hk0 : k ≠ 0 := by linarith
          rw [h0, Real.zero_rpow hk0, mul_zero]
        · rw [Real.rpow_sub_one h0]
          field_simp
      simp [value_type.pow_d, hval]
    · have := hf.rpow_const hk
      convert this using 1
      ring

/-- C12, witness: `f = g = id` with `a = b = (p, 1)`: at `p = 2` the product and the
dual-exponent power, at `p = -2` the power with the whole exponent `3`, and at `p = 0`
the power with exponent `2`. -/
theorem C12_taylor_preserved_witness :
    value_type.taylor ⟨Dbl.fin 2, Dbl.fin 1⟩ (fun x => x) 2
      ∧ (value_type.mul (⟨Dbl.fin 2, Dbl.fin 1⟩ : value_type Dbl) ⟨Dbl.fin 2, Dbl.fin 1⟩).taylor
          (fun x => x * x) 2
      ∧ (value_type.pow (⟨Dbl.fin 2, Dbl.fin 1⟩ : value_type Dbl) ⟨Dbl.fin 2, Dbl.fin 1⟩).taylor
          (fun x => x ^ x) 2
      ∧ value_type.taylor ⟨Dbl.fin (-2), Dbl.fin 1⟩ (fun x => x) (-2)
      ∧ (value_type.pow_d (⟨Dbl.fin (-2), Dbl.fin 1⟩ : value_type Dbl) (Dbl.fin 3)).taylor
          (fun x => x ^ (3 : ℝ)) (-2)
      ∧ value_type.taylor ⟨Dbl.fin 0, Dbl.fin 1⟩ (fun x => x) 0
      ∧ (value_type.pow_d (⟨Dbl.fin 0, Dbl.fin 1⟩ : value_type Dbl) (Dbl.fin 2)).taylor
          (fun x => x ^ (2 : ℝ)) 0 := by
  have h1 : value_type.taylor ⟨Dbl.fin 2, Dbl.fin 1⟩ (fun x => x) 2 :=
    ⟨1, rfl, hasDerivAt_id 2⟩
  have h2 : value_type.taylor ⟨Dbl.fin (-2), Dbl.fin 1⟩ (fun x => x) (-2) :=
    ⟨1, rfl, hasDerivAt_id (-2)⟩
  have h3 : value_type.taylor ⟨Dbl.fin 0, Dbl.fin 1⟩ (fun x => x) 0 :=
    ⟨1, rfl, hasDerivAt_id 0⟩
  exact ⟨h1, (C12_taylor_preserved (fun x => x) (fun x => x) 2 2 _ _ h1 h1).2.2.2.1,
    (C12_taylor_preserved (fun x => x) (fun x => x) 2 2 _ _ h1 h1).2.2.2.2.1 (by norm_num),
    h2,
    (C12_taylor_preserved (fun x => x) (fun x => x) (-2) 3 _ _ h2 h2).2.2.2.2.2
      (Or.inr (Or.inl ⟨by norm_num, ⟨3, by norm_num⟩⟩)),
    h3,
    (C12_taylor_preserved (fun x => x) (fun x => x) 0 2 _ _ h3 h3).2.2.2.2.2
      (Or.inr (Or.inr ⟨rfl, by norm_num⟩))⟩

/-- C12, counterexample: with `f = 1` and `g = id` at `p = 2` (so `g(p)` is non-zero),
`divide(a, b)` is `(2, 1)` and does not hold the value `1/2` of `f/g`; and with `f = id`
at `p = 0`, `power(a, 0)` does not hold the value `1` of `f^0` (with the IEEE special
values its value is `pow(0, -1) * 0 = ∞ * 0`, a NaN). -/
theorem C12_divide_and_zero_base_fail :
    value_type.taylor ⟨Dbl.fin 1, Dbl.fin 0⟩ (fun _ => 1) 2
      ∧ value_type.taylor ⟨Dbl.fin 2, Dbl.fin 1⟩ (fun x => x) 2
      ∧ value_type.div (⟨Dbl.fin 1, Dbl.fin 0⟩ : value_type Dbl) ⟨Dbl.fin 2, Dbl.fin 1⟩
        = ⟨Dbl.fin 2, Dbl.fin 1⟩
      ∧ ¬ (value_type.div (⟨Dbl.fin 1, Dbl.fin 0⟩ : value_type Dbl)
            ⟨Dbl.fin 2, Dbl.fin 1⟩).taylor (fun x => 1 / x) 2
      ∧ value_type.taylor ⟨Dbl.fin 0, Dbl.fin 1⟩ (fun x => x) 0
      ∧ ¬ (value_type.pow_d (⟨Dbl.fin 0, Dbl.fin 1⟩ : value_type Dbl) (Dbl.fin 0)).taylor
            (fun x => x ^ (0 : ℝ)) 0
      ∧ (value_type.pow_d (⟨Ieee.zero false, Ieee.num 1⟩ : value_type Ieee)
            (Ieee.zero false)).at_ = Ieee.nan := by
  have h1 : (Ieee.zero false : Ieee) - 1 = Ieee.num (-1) := by
    show Ieee.add (Ieee.zero false) (Ieee.neg (Ieee.num 1)) = Ieee.num (-1)
    simp [Ieee.add, Ieee.neg]
  have h2 : double.pow (Ieee.zero false) (Ieee.num (-1)) = Ieee.inf false := by
    show Ieee.pow (Ieee.zero false) (Ieee.num (-1)) = Ieee.inf false
    simp [Ieee.pow]
  refine ⟨⟨0, rfl, hasDerivAt_const 2 1⟩, ⟨1, rfl, hasDerivAt_id 2⟩, ?_, ?_,
    ⟨1, rfl, hasDerivAt_id 0⟩, ?_, by simp only [value_type.pow_d, h1, h2]; rfl⟩
  · simp [value_type.div]
  · rintro ⟨d, hd, -⟩
    have h3 := congrArg (fun v => v.at_) hd
    simp [value_type.div] at h3
    norm_num at h3
  · rintro ⟨d, hd, -⟩
    have h3 := congrArg (fun v => v.at_) hd
    simp [value_type.pow_d] at h3

end taylor

/-! ## The power nodes compared -/

section powers

/-- C19 (as amended): in exact arithmetic the two power rules agree on constant
exponents. For every dual `a = (x, y)` with a finite `x > 0` and every real `k`,
`power(a, k)` and `power(a, (k, 0))` are both the real pair `(x^k, k * x^(k-1) * y)`
(and they agree when `y` is NaN as well); hence for a handle `t` to an existing object
whose value at `p` is such a pair, `t ^ k` and `t ^ variable(k)` both evaluate to it. -/
theorem C19_power_rules_agree (x k y : ℝ) (d : Dbl) (hx : 0 < x) (h : heap Dbl)
    (t : variable_) (p : Dbl) (ht : t.m_term < h.nodes.length)
    (hval : (t.call h p).1 = ⟨Dbl.fin x, Dbl.fin y⟩) :
    value_type.pow_d ⟨Dbl.fin x, d⟩ (Dbl.fin k)
        = value_type.pow ⟨Dbl.fin x, d⟩ ⟨Dbl.fin k, Dbl.fin 0⟩
      ∧ value_type.pow_d ⟨Dbl.fin x, Dbl.fin y⟩ (Dbl.fin k)
        = ⟨Dbl.fin (x ^ k), Dbl.fin (k * x ^ (k - 1) * y)⟩
      ∧ value_type.pow ⟨Dbl.fin x, Dbl.fin y⟩ ⟨Dbl.fin k, Dbl.fin 0⟩
        = ⟨Dbl.fin (x ^ k), Dbl.fin (k * x ^ (k - 1) * y)⟩
      ∧ literal_exponent_result h t (Dbl.fin k) p
        = ⟨Dbl.fin (x ^ k), Dbl.fin (k * x ^ (k - 1) * y)⟩
      ∧ handle_exponent_result h t (Dbl.fin k) p
        = ⟨Dbl.fin (x ^ k), Dbl.fin (k * x ^ (k - 1) * y)⟩ := by
  have hx0 : x ≠ 0 := ne_of_gt hx
  have hval2 : x ^ (k - 1) * x = x ^ k := by
    rw [Real.rpow_sub_one hx0]
    field_simp
  have hd : value_type.pow_d ⟨Dbl.fin x, Dbl.fin y⟩ (Dbl.fin k)
      = ⟨Dbl.fin (x ^ k), Dbl.fin (k * x ^ (k - 1) * y)⟩ := by
    simp [value_type.pow_d, hval2]
  have hp : value_type.pow ⟨Dbl.fin x, Dbl.fin y⟩ ⟨Dbl.fin k, Dbl.fin 0⟩
      = ⟨Dbl.fin (x ^ k), Dbl.fin (k * x ^ (k - 1) * y)⟩ := by
    simp only [value_type.pow, Dbl.pow_fin, Dbl.mul_fin, Dbl.log_fin, Dbl.add_fin,
      Dbl.div_fin]
    rw [Real.rpow_sub_one hx0]
    congr 2
    field_simp
    ring
  have key : ∀ d' : Dbl, value_type.pow_d ⟨Dbl.fin x, d'⟩ (Dbl.fin k)
      = value_type.pow ⟨Dbl.fin x, d'⟩ ⟨Dbl.fin k, Dbl.fin 0⟩ := by
    intro d'
    cases d' with
    | nan => simp [value_type.pow_d, value_type.pow, hval2]
    | fin z =>
      simp only [value_type.pow_d, value_type.pow, Dbl.one_def, Dbl.sub_fin, Dbl.pow_fin,
        Dbl.mul_fin, Dbl.log_fin, Dbl.add_fin, Dbl.div_fin, hval2]
      rw [Real.rpow_sub_one hx0]
      congr 2
      field_simp
      ring
  have hv : (call h.nodes h.cells t.m_term p).val = ⟨Dbl.fin x, Dbl.fin y⟩ := hval
  have hl : literal_exponent_result h t (Dbl.fin k) p
      = value_type.pow_d (call h.nodes h.cells t.m_term p).val (Dbl.fin k) := by
    simp [literal_exponent_result, variable_.call, variable_.pow_d, variable_.of_new,
      heap.alloc, call_cons_miss, cached_kind.miss]
  have hr : handle_exponent_result h t (Dbl.fin k) p
      = value_type.pow (call h.nodes h.cells t.m_term p).val ⟨Dbl.fin k, Dbl.fin 0⟩ := by
    simp (disch := first | omega | (simp; done) | (simp; omega)) [handle_exponent_result,
      variable_.call, variable_.pow, variable_.of_double, variable_.of_new, heap.alloc,
      call_cons_miss, call_cons_lt, call_cons_const, cached_kind.miss, ht]
  exact ⟨key d, hd, hp, by rw [hl, hv, hd], by rw [hr, hv, hp]⟩

/-- C19, witness: the free variable at program start, raised to `3` at the point `2.0`. -/
theorem C19_power_rules_agree_witness :
    (0 : ℝ) < 2
      ∧ (variable_.mk_arg (heap.init : heap Dbl)).2.m_term
          < (variable_.mk_arg (heap.init : heap Dbl)).1.nodes.length
      ∧ ((variable_.mk_arg (heap.init : heap Dbl)).2.call
          (variable_.mk_arg (heap.init : heap Dbl)).1 (Dbl.fin 2)).1 = ⟨Dbl.fin 2, Dbl.fin 1⟩
      ∧ literal_exponent_result (variable_.mk_arg (heap.init : heap Dbl)).1
          (variable_.mk_arg (heap.init : heap Dbl)).2 (Dbl.fin 3) (Dbl.fin 2)
        = ⟨Dbl.fin ((2 : ℝ) ^ (3 : ℝ)), Dbl.fin (3 * (2 : ℝ) ^ (3 - 1 : ℝ) * 1)⟩
      ∧ handle_exponent_result (variable_.mk_arg (heap.init : heap Dbl)).1
          (variable_.mk_arg (heap.init : heap Dbl)).2 (Dbl.fin 3) (Dbl.fin 2)
        = ⟨Dbl.fin ((2 : ℝ) ^ (3 : ℝ)), Dbl.fin (3 * (2 : ℝ) ^ (3 - 1 : ℝ) * 1)⟩ := by
  have h1 : (variable_.mk_arg (heap.init : heap Dbl)).2.m_term
      < (variable_.mk_arg (heap.init : heap Dbl)).1.nodes.length :=
    node_at_lt _ _ _ (mk_arg_spec heap.init init_wf).2
  have h2 : ((variable_.mk_arg (heap.init : heap Dbl)).2.call
      (variable_.mk_arg (heap.init : heap Dbl)).1 (Dbl.fin 2)).1
      = ⟨Dbl.fin 2, Dbl.fin 1⟩ := by
    simp [variable_.call, mk_arg_call heap.init init_wf]
  exact ⟨by norm_num, h1, h2,
    (C19_power_rules_agree 2 3 1 (Dbl.fin 1) (by norm_num) _ _ (Dbl.fin 2) h1 h2).2.2.2.1,
    (C19_power_rules_agree 2 3 1 (Dbl.fin 1) (by norm_num) _ _ (Dbl.fin 2) h1 h2).2.2.2.2⟩

/-- C19, counterexample: at the base value `+∞`, which is positive, the two rules part.
`power((∞, 1), 2)` is `(∞, ∞)` while `power((∞, 1), (2, 0))` is `(∞, NaN)`, its
derivative holding `0 * log(∞)`; so `x ^ 2.0` and `x ^ variable(2.0)` over the free
variable return different duals at the point `+∞`. -/
theorem C19_infinite_base_rules_differ :
    value_type.pow_d (⟨Ieee.inf false, Ieee.num 1⟩ : value_type Ieee) (Ieee.num 2)
        = ⟨Ieee.inf false, Ieee.inf false⟩
      ∧ value_type.pow (⟨Ieee.inf false, Ieee.num 1⟩ : value_type Ieee)
          ⟨Ieee.num 2, Ieee.zero false⟩ = ⟨Ieee.inf false, Ieee.nan⟩
      ∧ literal_exponent_result (variable_.mk_arg (heap.init : heap Ieee)).1
          (variable_.mk_arg (heap.init : heap Ieee)).2 (Ieee.num 2) (Ieee.inf false)
        = ⟨Ieee.inf false, Ieee.inf false⟩
      ∧ handle_exponent_result (variable_.mk_arg (heap.init : heap Ieee)).1
          (variable_.mk_arg (heap.init : heap Ieee)).2 (Ieee.num 2) (Ieee.inf false)
        = ⟨Ieee.inf false, Ieee.nan⟩
      ∧ literal_exponent_result (variable_.mk_arg (heap.init : heap Ieee)).1
          (variable_.mk_arg (heap.init : heap Ieee)).2 (Ieee.num 2) (Ieee.inf false)
        ≠ handle_exponent_result (variable_.mk_arg (heap.init : heap Ieee)).1
          (variable_.mk_arg (heap.init : heap Ieee)).2 (Ieee.num 2) (Ieee.inf false) := by
  have hsub : (Ieee.num 2 : Ieee) - 1 = Ieee.num 1 := by
    show Ieee.add (Ieee.num 2) (Ieee.neg (Ieee.num 1)) = Ieee.num 1
    simp [Ieee.add, Ieee.neg, Ieee.of_real]
    norm_num
  have hp1 : double.pow (Ieee.inf false) (Ieee.num 1) = Ieee.inf false := by
    show Ieee.pow (Ieee.inf false) (Ieee.num 1) = Ieee.inf false
    simp [Ieee.pow]
  have hp2 : double.pow (Ieee.inf false) (Ieee.num 2) = Ieee.inf false := by
    show Ieee.pow (Ieee.inf false) (Ieee.num 2) = Ieee.inf false
    simp [Ieee.pow]
  have hlog : double.log (Ieee.inf false) = Ieee.inf false := rfl
  have hm1 : Ieee.inf false * Ieee.inf false = Ieee.inf false := rfl
  have hm2 : Ieee.num 2 * Ieee.inf false = Ieee.inf false := by
    show Ieee.mul (Ieee.num 2) (Ieee.inf false) = Ieee.inf false
    simp [Ieee.mul, Ieee.negative]
  have hm3 : Ieee.inf false * Ieee.num 1 = Ieee.inf false := by
    show Ieee.mul (Ieee.inf false) (Ieee.num 1) = Ieee.inf false
    simp [Ieee.mul, Ieee.negative]
  have hm4 : Ieee.zero false * Ieee.inf false = Ieee.nan := rfl
  have hadd : ∀ z : Ieee, Ieee.nan + z = Ieee.nan := by
    intro z
    cases z <;> rfl
  have hm5 : Ieee.inf false * Ieee.nan = Ieee.nan := rfl
  have hd : value_type.pow_d (⟨Ieee.inf false, Ieee.num 1⟩ : value_type Ieee) (Ieee.num 2)
      = ⟨Ieee.inf false, Ieee.inf false⟩ := by
    simp only [value_type.pow_d, hsub, hp1, hm1, hm2, hm3]
  have hp : value_type.pow (⟨Ieee.inf false, Ieee.num 1⟩ : value_type Ieee)
      ⟨Ieee.num 2, Ieee.zero false⟩ = ⟨Ieee.inf false, Ieee.nan⟩ := by
    simp only [value_type.pow, hp2, hlog, hm4, hadd, hm5]
  have hx := mk_arg_call (heap.init : heap Ieee) init_wf (Ieee.inf false)
  have hlt := node_at_lt _ _ _ (mk_arg_spec (heap.init : heap Ieee) init_wf).2
  have hl : literal_exponent_result (variable_.mk_arg (heap.init : heap Ieee)).1
      (variable_.mk_arg (heap.init : heap Ieee)).2 (Ieee.num 2) (Ieee.inf false)
      = ⟨Ieee.inf false, Ieee.inf false⟩ := by
    rw [← hd]
    simp [literal_exponent_result, variable_.call, variable_.pow_d, variable_.of_new,
      heap.alloc, call_cons_miss, cached_kind.miss, hx, ieee_one_def]
  have hr : handle_exponent_result (variable_.mk_arg (heap.init : heap Ieee)).1
      (variable_.mk_arg (heap.init : heap Ieee)).2 (Ieee.num 2) (Ieee.inf false)
      = ⟨Ieee.inf false, Ieee.nan⟩ := by
    rw [← hp]
    simp (disch := first | omega | (simp; done) | (simp; omega)) [handle_exponent_result,
      variable_.call, variable_.pow, variable_.of_double, variable_.of_new, heap.alloc,
      call_cons_miss, call_cons_lt, call_cons_const, cached_kind.miss, hlt, hx,
      ieee_one_def, ieee_zero_def]
  refine ⟨hd, hp, hl, hr, ?_⟩
  rw [hl, hr]
  simp

/-- C20: for `k > 0` and an exponent handle `t` whose value at `p` is `(e, e')`, the
literal-base node `k ^ t` gives `(k^e, k^e * e')` and the handle-base node
`variable(k) ^ t` gives `(k^e, ln(k) * (k^e * e'))`: same value, derivatives apart by the
factor `ln(k)`. The two results agree exactly when `e' = 0` or `ln(k) = 1`, and they agree
for every `t` and `p` only when `ln(k) = 1`. -/
theorem C20_constant_base_forms (h : heap Dbl) (k : ℝ) (hk : 0 < k) (t : variable_)
    (p : Dbl) (e e' : ℝ) (ht : t.m_term < h.nodes.length)
    (he : (t.call h p).1 = ⟨Dbl.fin e, Dbl.fin e'⟩) :
    literal_base_result h (Dbl.fin k) t p = ⟨Dbl.fin (k ^ e), Dbl.fin (k ^ e * e')⟩
      ∧ handle_base_result h (Dbl.fin k) t p
        = ⟨Dbl.fin (k ^ e), Dbl.fin (Real.log k * (k ^ e * e'))⟩
      ∧ (literal_base_result h (Dbl.fin k) t p = handle_base_result h (Dbl.fin k) t p
          ↔ e' = 0 ∨ Real.log k = 1)
      ∧ ((∀ (h' : heap Dbl) (t' : variable_) (p' : Dbl), h'.wf → t'.m_term < h'.nodes.length →
            literal_base_result h' (Dbl.fin k) t' p' = handle_base_result h' (Dbl.fin k) t' p')
          → Real.log k = 1) := by
  have hpos : ∀ y : ℝ, k ^ y ≠ 0 := fun y => ne_of_gt (Real.rpow_pos_of_pos hk y)
  have hev : (call h.nodes h.cells t.m_term p).val = ⟨Dbl.fin e, Dbl.fin e'⟩ := he
  have hl : literal_base_result h (Dbl.fin k) t p
      = ⟨Dbl.fin (k ^ e), Dbl.fin (k ^ e * e')⟩ := by
    simp [literal_base_result, variable_.call, variable_.d_pow, variable_.of_new,
      heap.alloc, call_cons_miss, cached_kind.miss, hev]
  have hr : handle_base_result h (Dbl.fin k) t p
      = ⟨Dbl.fin (k ^ e), Dbl.fin (Real.log k * (k ^ e * e'))⟩ := by
    simp (disch := first | omega | (simp; done) | (simp; omega)) [handle_base_result,
      variable_.call, variable_.pow, variable_.of_double, variable_.of_new, heap.alloc,
      call_cons_miss, call_cons_lt, call_cons_const, cached_kind.miss, ht, hev,
      value_type.pow]
    ring
  refine ⟨hl, hr, ?_, ?_⟩
  · rw [hl, hr]
    constructor
    · intro hEq
      have h3 := congrArg (fun v => v.prime) hEq
      simp only [Dbl.fin.injEq] at h3
      by_cases h0 : e' = 0
      · exact Or.inl h0
      · right
        have h4 : k ^ e * e' ≠ 0 := mul_ne_zero (hpos e) h0
        have h5 : (Real.log k - 1) * (k ^ e * e') = 0 := by linarith
        rcases mul_eq_zero.mp h5 with h6 | h6
        · linarith
        · exact absurd h6 h4
    · rintro (h0 | h1)
      · simp [h0]
      · simp [h1]
  · intro hall
    have hw := (mk_arg_spec (heap.init : heap Dbl) init_wf)
    have hx := mk_arg_call (heap.init : heap Dbl) init_wf (Dbl.fin 0)
    have hlt := node_at_lt _ _ _ hw.2
    have hEq := hall _ _ (Dbl.fin 0) hw.1 hlt
    have hl0 : literal_base_result (variable_.mk_arg (heap.init : heap Dbl)).1 (Dbl.fin k)
        (variable_.mk_arg (heap.init : heap Dbl)).2 (Dbl.fin 0)
        = ⟨Dbl.fin (k ^ (0 : ℝ)), Dbl.fin (k ^ (0 : ℝ) * 1)⟩ := by
      simp [literal_base_result, variable_.call, variable_.d_pow, variable_.of_new,
        heap.alloc, call_cons_miss, cached_kind.miss, hx]
    have hr0 : handle_base_result (variable_.mk_arg (heap.init : heap Dbl)).1 (Dbl.fin k)
        (variable_.mk_arg (heap.init : heap Dbl)).2 (Dbl.fin 0)
        = ⟨Dbl.fin (k ^ (0 : ℝ)), Dbl.fin (Real.log k * (k ^ (0 : ℝ) * 1))⟩ := by
      simp (disch := first | omega | (simp; done) | (simp; omega)) [handle_base_result,
        variable_.call, variable_.pow, variable_.of_double, variable_.of_new, heap.alloc,
        call_cons_miss, call_cons_lt, call_cons_const, cached_kind.miss, hlt, hx,
        value_type.pow]
    rw [hl0, hr0] at hEq
    have h3 := congrArg (fun v => v.prime) hEq
    simp only [Dbl.fin.injEq] at h3
    simpa using h3.symm

/-- C20, witness: base `2` over the free variable at program start, at the point `3.0`. -/
theorem C20_constant_base_forms_witness :
    (0 : ℝ) < 2
      ∧ (variable_.mk_arg (heap.init : heap Dbl)).2.m_term
          < (variable_.mk_arg (heap.init : heap Dbl)).1.nodes.length
      ∧ ((variable_.mk_arg (heap.init : heap Dbl)).2.call
          (variable_.mk_arg (heap.init : heap Dbl)).1 (Dbl.fin 3)).1 = ⟨Dbl.fin 3, Dbl.fin 1⟩
      ∧ handle_base_result (variable_.mk_arg (heap.init : heap Dbl)).1 (Dbl.fin 2)
          (variable_.mk_arg (heap.init : heap Dbl)).2 (Dbl.fin 3)
        = ⟨Dbl.fin ((2 : ℝ) ^ (3 : ℝ)), Dbl.fin (Real.log 2 * ((2 : ℝ) ^ (3 : ℝ) * 1))⟩ := by
  have h1 : (variable_.mk_arg (heap.init : heap Dbl)).2.m_term
      < (variable_.mk_arg (heap.init : heap Dbl)).1.nodes.length :=
    node_at_lt _ _ _ (mk_arg_spec heap.init init_wf).2
  have h2 : ((variable_.mk_arg (heap.init : heap Dbl)).2.call
      (variable_.mk_arg (heap.init : heap Dbl)).1 (Dbl.fin 3)).1
      = ⟨Dbl.fin 3, Dbl.fin 1⟩ := by
    simp [variable_.call, mk_arg_call heap.init init_wf]
  exact ⟨by norm_num, h1, h2,
    (C20_constant_base_forms _ 2 (by norm_num) _ (Dbl.fin 3) 3 1 h1 h2).2.1⟩

end powers

/-! ## Memoization against the cache-free evaluator -/

section transparency

variable {F : Type} [double F]

theorem evaluate_cons_lt (n : node F) (g : List (node F)) (a : Nat) (p : F)
    (ha : a < g.length) : evaluate (n :: g) a p = evaluate g a p := by
  simp [evaluate, ha]

theorem evaluate_cons_cached (k : cached_kind F) (g : List (node F)) (a : Nat) (p : F)
    (ha : a = g.length) :
    evaluate (node.cached k :: g) a p
      = (k.miss (fun σ b x => ⟨evaluate g b x, σ, 0⟩) p []).val := by
  simp [evaluate, ha]

theorem evaluate_cons_const (m_value : F) (g : List (node F)) (a : Nat) (p : F)
    (ha : a = g.length) : evaluate (node.const_term m_value :: g) a p = ⟨m_value, 0⟩ := by
  simp [evaluate, ha]

theorem evaluate_cons_arg (g : List (node F)) (a : Nat) (p : F) (ha : a = g.length) :
    evaluate (node.arg_term :: g) a p = ⟨p, 1⟩ := by
  simp [evaluate, ha]

/-- Objects allocated later do not change what an object evaluates to. -/
theorem evaluate_append (pre g : List (node F)) (a : Nat) (p : F) (ha : a < g.length) :
    evaluate (pre ++ g) a p = evaluate g a p := by
  induction pre with
  | nil => rfl
  | cons n pre ih =>
    have hlt : a < (pre ++ g).length := by simp; omega
    rw [List.cons_append, evaluate_cons_lt n _ a p hlt, ih]

/-- A `miss` handler whose child calls return the cache-free values and keep an
invariant of the cells returns the cache-free value itself and keeps the invariant. -/
theorem miss_transparent (ev : List (cached F) → Nat → F → outcome F)
    (pv : Nat → F → value_type F) (Inv : List (cached F) → Prop)
    (hev : ∀ σ a x, Inv σ → (ev σ a x).val = pv a x ∧ Inv (ev σ a x).cells)
    (k : cached_kind F) (p : F) (σ : List (cached F)) (hσ : Inv σ) :
    (k.miss ev p σ).val = (k.miss (fun τ b x => ⟨pv b x, τ, 0⟩) p []).val
      ∧ Inv (k.miss ev p σ).cells := by
  cases k with
  | custom m_fn m_der => exact ⟨rfl, hσ⟩
  | term_inv m_inv =>
    obtain ⟨h1, h2⟩ := hev σ m_inv p hσ
    exact ⟨by simp [cached_kind.miss, h1], h2⟩
  | term_add m_first m_second =>
    obtain ⟨h1, h2⟩ := hev σ m_first p hσ
    obtain ⟨h3, h4⟩ := hev _ m_second p h2
    exact ⟨by simp [cached_kind.miss, h1, h3], h4⟩
  | term_sub m_first m_second =>
    obtain ⟨h1, h2⟩ := hev σ m_first p hσ
    obtain ⟨h3, h4⟩ := hev _ m_second p h2
    exact ⟨by simp [cached_kind.miss, h1, h3], h4⟩
  | term_mul m_first m_second =>
    obtain ⟨h1, h2⟩ := hev σ m_first p hσ
    obtain ⟨h3, h4⟩ := hev _ m_second p h2
    exact ⟨by simp [cached_kind.miss, h1, h3], h4⟩
  | term_div m_first m_second =>
    obtain ⟨h1, h2⟩ := hev σ m_first p hσ
    obtain ⟨h3, h4⟩ := hev _ m_second p h2
    exact ⟨by simp [cached_kind.miss, h1, h3], h4⟩
  | term_comp m_first m_second =>
    obtain ⟨h1, h2⟩ := hev σ m_second p hσ
    obtain ⟨h3, h4⟩ := hev _ m_first (ev σ m_second p).val.at_ h2
    rw [h1] at h3
    exact ⟨by simp only [cached_kind.miss, h1, h3], h4⟩
  | term_pow m_first m_second =>
    obtain ⟨h1, h2⟩ := hev σ m_first p hσ
    obtain ⟨h3, h4⟩ := hev _ m_second p h2
    exact ⟨by simp [cached_kind.miss, h1, h3], h4⟩
  | term_pow_d m_base m_exponent =>
    obtain ⟨h1, h2⟩ := hev σ m_base p hσ
    exact ⟨by simp [cached_kind.miss, h1], h2⟩
  | d_pow_term m_base m_exponent =>
    obtain ⟨h1, h2⟩ := hev σ m_exponent p hσ
    exact ⟨by simp [cached_kind.miss, h1], h2⟩
  | exp_term => exact ⟨rfl, hσ⟩
  | log_term => exact ⟨rfl, hσ⟩
  | sin_term => exact ⟨rfl, hσ⟩
  | cos_term => exact ⟨rfl, hσ⟩
  | tan_term => exact ⟨rfl, hσ⟩

/-- Where `!=` is false only between identical values, a call in a coherent state returns
the cache-free value and leaves a coherent state. -/
theorem call_evaluate (hne : ∀ p q : F, double.ne p q = false → p = q)
    (g : List (node F)) (σ : List (cached F)) (a : Nat) (p : F) (hco : coherent g σ) :
    (call g σ a p).val = evaluate g a p ∧ coherent g (call g σ a p).cells := by
  induction g generalizing σ a p with
  | nil =>
    cases σ with
    | nil => simp [call, evaluate, coherent]
    | cons c σ => simp [coherent] at hco
  | cons n g ih =>
    cases σ with
    | nil => simp [coherent] at hco
    | cons c σ =>
      obtain ⟨hc, hrest⟩ := hco
      by_cases hlt : a < g.length
      · obtain ⟨h1, h2⟩ := ih σ a p hrest
        rw [call_cons_lt n g c σ a p hlt, evaluate_cons_lt n g a p hlt]
        exact ⟨h1, hc, h2⟩
      · by_cases heq : a = g.length
        · cases n with
          | const_term m =>
            rw [call_cons_const m g c σ a p heq, evaluate_cons_const m g a p heq]
            exact ⟨rfl, hc, hrest⟩
          | arg_term =>
            rw [call_cons_arg g c σ a p heq, evaluate_cons_arg g a p heq]
            exact ⟨rfl, hc, hrest⟩
          | cached k =>
            cases hcmp : double.ne p c.m_point with
            | true =>
              obtain ⟨h1, h2⟩ := miss_transparent (call g) (evaluate g) (coherent g)
                (fun τ b x hτ => ih τ b x hτ) k p σ hrest
              rw [call_cons_miss k g c σ a p heq hcmp, evaluate_cons_cached k g a p heq]
              refine ⟨h1, ?_, h2⟩
              intro k2 hk2 _
              cases hk2
              rw [evaluate_cons_cached k g g.length p rfl]
              exact h1
            | false =>
              have hpe : p = c.m_point := hne p c.m_point hcmp
              rw [call_cons_hit k g c σ a p heq hcmp]
              refine ⟨?_, hc, hrest⟩
              have hself : double.ne c.m_point c.m_point = false := by
                rw [hpe] at hcmp; exact hcmp
              rw [hc k rfl hself, heq, hpe]
        · refine ⟨by simp [call, evaluate, hlt, heq], ?_⟩
          have : call (n :: g) (c :: σ) a p = ⟨⟨double.nan, double.nan⟩, c :: σ, 0⟩ := by
            simp [call, hlt, heq]
          rw [this]
          exact ⟨hc, hrest⟩

/-- A fresh cell holds NaN, so allocation keeps the state coherent. -/
theorem coherent_alloc (h : heap F) (n : node F) (hco : h.coherent) :
    (h.alloc n).1.coherent := by
  refine ⟨?_, hco⟩
  intro k _ hself
  have := double.ne_nan (double.nan : F)
  simp only at hself
  rw [this] at hself
  exact absurd hself (by decide)

theorem coherent_mk_arg (h : heap F) (hco : h.coherent) : (variable_.mk_arg h).1.coherent := by
  unfold variable_.mk_arg arg_term.get
  cases h.arg with
  | some ptr => exact hco
  | none => exact coherent_alloc h node.arg_term hco

theorem coherent_init : (heap.init : heap F).coherent := by
  simp [heap.coherent, heap.init, coherent]

end transparency

/-! ## Either order of the operand calls, and exact hits -/

section orders

variable {F : Type} [double F]

theorem call_in_cons_lt (rf : Bool) (n : node F) (g : List (node F)) (c : cached F)
    (σ : List (cached F)) (a : Nat) (p : F) (ha : a < g.length) :
    call_in rf (n :: g) (c :: σ) a p
      = ⟨(call_in rf g σ a p).val, c :: (call_in rf g σ a p).cells,
          (call_in rf g σ a p).misses⟩ := by
  simp [call_in, ha]

theorem call_in_cons_const (rf : Bool) (m_value : F) (g : List (node F)) (c : cached F)
    (σ : List (cached F)) (a : Nat) (p : F) (ha : a = g.length) :
    call_in rf (node.const_term m_value :: g) (c :: σ) a p = ⟨⟨m_value, 0⟩, c :: σ, 0⟩ := by
  simp [call_in, ha]

theorem call_in_cons_arg (rf : Bool) (g : List (node F)) (c : cached F)
    (σ : List (cached F)) (a : Nat) (p : F) (ha : a = g.length) :
    call_in rf (node.arg_term :: g) (c :: σ) a p = ⟨⟨p, 1⟩, c :: σ, 0⟩ := by
  simp [call_in, ha]

theorem call_in_cons_miss (rf : Bool) (k : cached_kind F) (g : List (node F))
    (c : cached F) (σ : List (cached F)) (a : Nat) (p : F) (ha : a = g.length)
    (hne : double.ne p c.m_point = true) :
    call_in rf (node.cached k :: g) (c :: σ) a p
      = ⟨(k.miss_in rf (call_in rf g) p σ).val,
          ⟨p, (k.miss_in rf (call_in rf g) p σ).val⟩ :: (k.miss_in rf (call_in rf g) p σ).cells,
          (k.miss_in rf (call_in rf g) p σ).misses + 1⟩ := by
  simp [call_in, ha, hne]

theorem call_in_cons_hit (rf : Bool) (k : cached_kind F) (g : List (node F))
    (c : cached F) (σ : List (cached F)) (a : Nat) (p : F) (ha : a = g.length)
    (hne : double.ne p c.m_point = false) :
    call_in rf (node.cached k :: g) (c :: σ) a p = ⟨c.m_cache, c :: σ, 0⟩ := by
  simp [call_in, ha, hne]

theorem exact_in_cons_lt (rf : Bool) (n : node F) (g : List (node F)) (c : cached F)
    (σ : List (cached F)) (a : Nat) (p : F) (ha : a < g.length) :
    exact_in rf (n :: g) (c :: σ) a p = exact_in rf g σ a p := by
  simp [exact_in, ha]

theorem exact_in_cons_miss (rf : Bool) (k : cached_kind F) (g : List (node F))
    (c : cached F) (σ : List (cached F)) (a : Nat) (p : F) (ha : a = g.length)
    (hne : double.ne p c.m_point = true) :
    exact_in rf (node.cached k :: g) (c :: σ) a p
      = k.exact_miss rf (call_in rf g) (exact_in rf g) p σ := by
  simp [exact_in, ha, hne]

theorem exact_in_cons_hit (rf : Bool) (k : cached_kind F) (g : List (node F))
    (c : cached F) (σ : List (cached F)) (a : Nat) (p : F) (ha : a = g.length)
    (hne : double.ne p c.m_point = false) :
    exact_in rf (node.cached k :: g) (c :: σ) a p = (p = c.m_point) := by
  simp [exact_in, ha, hne]

/-- With the first operand first, `call_in` is `call`. -/
theorem call_in_false (g : List (node F)) (σ : List (cached F)) (a : Nat) (p : F) :
    call_in false g σ a p = call g σ a p := by
  induction g generalizing σ a p with
  | nil => simp [call_in, call]
  | cons n g ih =>
    cases σ with
    | nil => simp [call_in, call]
    | cons c σ =>
      have hfun : call_in false g = call g :=
        funext fun τ => funext fun b => funext fun x => ih τ b x
      simp [call_in, call, ih, hfun, cached_kind.miss_in]

/-- A `miss` handler, under either order, whose exact child calls return the cache-free
values and keep an invariant of the cells returns the cache-free value itself and keeps
the invariant, provided the calls it makes are exact. -/
theorem miss_in_transparent (rf : Bool) (ev : List (cached F) → Nat → F → outcome F)
    (ex : List (cached F) → Nat → F → Prop)
    (pv : Nat → F → value_type F) (Inv : List (cached F) → Prop)
    (hev : ∀ σ a x, Inv σ → ex σ a x → (ev σ a x).val = pv a x ∧ Inv (ev σ a x).cells)
    (k : cached_kind F) (p : F) (σ : List (cached F)) (hσ : Inv σ)
    (hex : k.exact_miss rf ev ex p σ) :
    (k.miss_in rf ev p σ).val = (k.miss (fun τ b x => ⟨pv b x, τ, 0⟩) p []).val
      ∧ Inv (k.miss_in rf ev p σ).cells := by
  cases rf with
  | false =>
    cases k with
    | custom m_fn m_der => exact ⟨rfl, hσ⟩
    | term_inv m_inv =>
      obtain ⟨h1, h2⟩ := hev σ m_inv p hσ hex
      exact ⟨by simp [cached_kind.miss_in, cached_kind.miss, h1], h2⟩
    | term_add m_first m_second =>
      obtain ⟨e1, e2⟩ := hex
      obtain ⟨h1, h2⟩ := hev σ m_first p hσ e1
      obtain ⟨h3, h4⟩ := hev _ m_second p h2 e2
      exact ⟨by simp [cached_kind.miss_in, cached_kind.miss, h1, h3], h4⟩
    | term_sub m_first m_second =>
      obtain ⟨e1, e2⟩ := hex
      obtain ⟨h1, h2⟩ := hev σ m_first p hσ e1
      obtain ⟨h3, h4⟩ := hev _ m_second p h2 e2
      exact ⟨by simp [cached_kind.miss_in, cached_kind.miss, h1, h3], h4⟩
    | term_mul m_first m_second =>
      obtain ⟨e1, e2⟩ := hex
      obtain ⟨h1, h2⟩ := hev σ m_first p hσ e1
      obtain ⟨h3, h4⟩ := hev _ m_second p h2 e2
      exact ⟨by simp [cached_kind.miss_in, cached_kind.miss, h1, h3], h4⟩
    | term_div m_first m_second =>
      obtain ⟨e1, e2⟩ := hex
      obtain ⟨h1, h2⟩ := hev σ m_first p hσ e1
      obtain ⟨h3, h4⟩ := hev _ m_second p h2 e2
      exact ⟨by simp [cached_kind.miss_in, cached_kind.miss, h1, h3], h4⟩
    | term_comp m_first m_second =>
      obtain ⟨e1, e2⟩ := hex
      obtain ⟨h1, h2⟩ := hev σ m_second p hσ e1
      obtain ⟨h3, h4⟩ := hev _ m_first (ev σ m_second p).val.at_ h2 e2
      rw [h1] at h3
      exact ⟨by simp only [cached_kind.miss_in, cached_kind.miss, h1, h3]; rfl, h4⟩
    | term_pow m_first m_second =>
      obtain ⟨e1, e2⟩ := hex
      obtain ⟨h1, h2⟩ := hev σ m_first p hσ e1
      obtain ⟨h3, h4⟩ := hev _ m_second p h2 e2
      exact ⟨by simp [cached_kind.miss_in, cached_kind.miss, h1, h3], h4⟩
    | term_pow_d m_base m_exponent =>
      obtain ⟨h1, h2⟩ := hev σ m_base p hσ hex
      exact ⟨by simp [cached_kind.miss_in, cached_kind.miss, h1], h2⟩
    | d_pow_term m_base m_exponent =>
      obtain ⟨h1, h2⟩ := hev σ m_exponent p hσ hex
      exact ⟨by simp [cached_kind.miss_in, cached_kind.miss, h1], h2⟩
    | exp_term => exact ⟨rfl, hσ⟩
    | log_term => exact ⟨rfl, hσ⟩
    | sin_term => exact ⟨rfl, hσ⟩
    | cos_term => exact ⟨rfl, hσ⟩
    | tan_term => exact ⟨rfl, hσ⟩
  | true =>
    cases k with
    | custom m_fn m_der => exact ⟨rfl, hσ⟩
    | term_inv m_inv =>
      obtain ⟨h1, h2⟩ := hev σ m_inv p hσ hex
      exact ⟨by simp [cached_kind.miss_in, cached_kind.miss_right_first, cached_kind.miss, h1],
        h2⟩
    | term_add m_first m_second =>
      obtain ⟨e1, e2⟩ := hex
      obtain ⟨h1, h2⟩ := hev σ m_second p hσ e1
      obtain ⟨h3, h4⟩ := hev _ m_first p h2 e2
      exact ⟨by simp [cached_kind.miss_in, cached_kind.miss_right_first, cached_kind.miss,
        h1, h3], h4⟩
    | term_sub m_first m_second =>
      obtain ⟨e1, e2⟩ := hex
      obtain ⟨h1, h2⟩ := hev σ m_second p hσ e1
      obtain ⟨h3, h4⟩ := hev _ m_first p h2 e2
      exact ⟨by simp [cached_kind.miss_in, cached_kind.miss_right_first, cached_kind.miss,
        h1, h3], h4⟩
    | term_mul m_first m_second =>
      obtain ⟨e1, e2⟩ := hex
      obtain ⟨h1, h2⟩ := hev σ m_second p hσ e1
      obtain ⟨h3, h4⟩ := hev _ m_first p h2 e2
      exact ⟨by simp [cached_kind.miss_in, cached_kind.miss_right_first, cached_kind.miss,
        h1, h3], h4⟩
    | term_div m_first m_second =>
      obtain ⟨e1, e2⟩ := hex
      obtain ⟨h1, h2⟩ := hev σ m_second p hσ e1
      obtain ⟨h3, h4⟩ := hev _ m_first p h2 e2
      exact ⟨by simp [cached_kind.miss_in, cached_kind.miss_right_first, cached_kind.miss,
        h1, h3], h4⟩
    | term_comp m_first m_second =>
      obtain ⟨e1, e2⟩ := hex
      obtain ⟨h1, h2⟩ := hev σ m_second p hσ e1
      obtain ⟨h3, h4⟩ := hev _ m_first (ev σ m_second p).val.at_ h2 e2
      rw [h1] at h3
      exact ⟨by
        simp only [cached_kind.miss_in, cached_kind.miss_right_first, cached_kind.miss, h1, h3]
        rfl, h4⟩
    | term_pow m_first m_second =>
      obtain ⟨e1, e2⟩ := hex
      obtain ⟨h1, h2⟩ := hev σ m_second p hσ e1
      obtain ⟨h3, h4⟩ := hev _ m_first p h2 e2
      exact ⟨by simp [cached_kind.miss_in, cached_kind.miss_right_first, cached_kind.miss,
        h1, h3], h4⟩
    | term_pow_d m_base m_exponent =>
      obtain ⟨h1, h2⟩ := hev σ m_base p hσ hex
      exact ⟨by simp [cached_kind.miss_in, cached_kind.miss_right_first, cached_kind.miss, h1],
        h2⟩
    | d_pow_term m_base m_exponent =>
      obtain ⟨h1, h2⟩ := hev σ m_exponent p hσ hex
      exact ⟨by simp [cached_kind.miss_in, cached_kind.miss_right_first, cached_kind.miss, h1],
        h2⟩
    | exp_term => exact ⟨rfl, hσ⟩
    | log_term => exact ⟨rfl, hσ⟩
    | sin_term => exact ⟨rfl, hσ⟩
    | cos_term => exact ⟨rfl, hσ⟩
    | tan_term => exact ⟨rfl, hσ⟩

/-- Under either order, a call in a coherent state all of whose hits are exact returns
the cache-free value and leaves a coherent state. -/
theorem call_in_evaluate (rf : Bool) (g : List (node F)) (σ : List (cached F)) (a : Nat)
    (p : F) (hco : coherent g σ) (hex : exact_in rf g σ a p) :
    (call_in rf g σ a p).val = evaluate g a p ∧ coherent g (call_in rf g σ a p).cells := by
  induction g generalizing σ a p with
  | nil =>
    cases σ with
    | nil => simp [call_in, evaluate, coherent]
    | cons c σ => simp [coherent] at hco
  | cons n g ih =>
    cases σ with
    | nil => simp [coherent] at hco
    | cons c σ =>
      obtain ⟨hc, hrest⟩ := hco
      by_cases hlt : a < g.length
      · rw [exact_in_cons_lt rf n g c σ a p hlt] at hex
        obtain ⟨h1, h2⟩ := ih σ a p hrest hex
        rw [call_in_cons_lt rf n g c σ a p hlt, evaluate_cons_lt n g a p hlt]
        exact ⟨h1, hc, h2⟩
      · by_cases heq : a = g.length
        · cases n with
          | const_term m =>
            rw [call_in_cons_const rf m g c σ a p heq, evaluate_cons_const m g a p heq]
            exact ⟨rfl, hc, hrest⟩
          | arg_term =>
            rw [call_in_cons_arg rf g c σ a p heq, evaluate_cons_arg g a p heq]
            exact ⟨rfl, hc, hrest⟩
          | cached k =>
            cases hcmp : double.ne p c.m_point with
            | true =>
              rw [exact_in_cons_miss rf k g c σ a p heq hcmp] at hex
              obtain ⟨h1, h2⟩ := miss_in_transparent rf (call_in rf g) (exact_in rf g)
                (evaluate g) (coherent g) (fun τ b x hτ hx => ih τ b x hτ hx) k p σ hrest hex
              rw [call_in_cons_miss rf k g c σ a p heq hcmp, evaluate_cons_cached k g a p heq]
              refine ⟨h1, ?_, h2⟩
              intro k2 hk2 _
              cases hk2
              rw [evaluate_cons_cached k g g.length p rfl]
              exact h1
            | false =>
              rw [exact_in_cons_hit rf k g c σ a p heq hcmp] at hex
              rw [call_in_cons_hit rf k g c σ a p heq hcmp]
              refine ⟨?_, hc, hrest⟩
              have hself : double.ne c.m_point c.m_point = false := by
                rw [hex] at hcmp; exact hcmp
              rw [hc k rfl hself, heq, hex]
        · refine ⟨by simp [call_in, evaluate, hlt, heq], ?_⟩
          have : call_in rf (n :: g) (c :: σ) a p = ⟨⟨double.nan, double.nan⟩, c :: σ, 0⟩ := by
            simp [call_in, hlt, heq]
          rw [this]
          exact ⟨hc, hrest⟩

/-- Under either order, a whole client program run on a coherent state, all hits exact,
returns, evaluation by evaluation, the cache-free values. -/
theorem run_in_eq_cache_free (rf : Bool) (prog : List (step F)) (h h' : heap F)
    (hn : h'.nodes = h.nodes) (ha : h'.arg = h.arg) (hco : h.coherent)
    (hex : exact_run rf h prog) : run_in rf h prog = run_cache_free h' prog := by
  induction prog generalizing h h' with
  | nil => rfl
  | cons s prog ih =>
    cases s with
    | new_node n =>
      simp only [run_in, run_cache_free]
      exact ih _ _ (by simp [variable_.of_new, heap.alloc, hn])
        (by simp [variable_.of_new, heap.alloc, ha]) (coherent_alloc h n hco) hex
    | default_ctor =>
      simp only [run_in, run_cache_free]
      refine ih _ _ ?_ ?_ (coherent_mk_arg h hco) hex
      · unfold variable_.mk_arg arg_term.get
        rw [ha]
        cases hA : h.arg <;> simp [heap.alloc, hn]
      · unfold variable_.mk_arg arg_term.get
        rw [ha]
        cases hA : h.arg <;> simp [heap.alloc, hn, ha, hA]
    | call v p =>
      obtain ⟨hex1, hex2⟩ := hex
      obtain ⟨h1, h2⟩ := call_in_evaluate rf h.nodes h.cells v.m_term p hco hex1
      simp only [run_in, run_cache_free]
      rw [ih (v.call_in rf h p).2 h' (by simp [variable_.call_in, hn])
        (by simp [variable_.call_in, ha])
        (by simpa [variable_.call_in, heap.coherent] using h2) hex2]
      simp [variable_.call_in, h1, hn]

/-- Where every child call is exact, so is the handler. -/
theorem exact_miss_of_all {F : Type} (rf : Bool) (ev : List (cached F) → Nat → F → outcome F)
    (ex : List (cached F) → Nat → F → Prop) (hall : ∀ σ a x, ex σ a x)
    (k : cached_kind F) (p : F) (σ : List (cached F)) : k.exact_miss rf ev ex p σ := by
  cases rf <;> cases k <;>
    simp [cached_kind.exact_miss, exact_pair, hall]

/-- Where `!=` is false only between identical values, every hit is exact. -/
theorem exact_in_of_law (hne : ∀ p q : F, double.ne p q = false → p = q) (rf : Bool)
    (g : List (node F)) (σ : List (cached F)) (a : Nat) (p : F) : exact_in rf g σ a p := by
  induction g generalizing σ a p with
  | nil => simp [exact_in]
  | cons n g ih =>
    cases σ with
    | nil => simp [exact_in]
    | cons c σ =>
      by_cases hlt : a < g.length
      · rw [exact_in_cons_lt rf n g c σ a p hlt]
        exact ih σ a p
      · by_cases heq : a = g.length
        · cases n with
          | const_term m => simp [exact_in, hlt]
          | arg_term => simp [exact_in, hlt]
          | cached k =>
            cases hcmp : double.ne p c.m_point with
            | true =>
              rw [exact_in_cons_miss rf k g c σ a p heq hcmp]
              exact exact_miss_of_all rf _ _ (fun τ b x => ih τ b x) k p σ
            | false =>
              rw [exact_in_cons_hit rf k g c σ a p heq hcmp]
              exact hne p c.m_point hcmp
        · simp [exact_in, hlt, heq]

theorem exact_run_of_law (hne : ∀ p q : F, double.ne p q = false → p = q) (rf : Bool)
    (prog : List (step F)) (h : heap F) : exact_run rf h prog := by
  induction prog generalizing h with
  | nil => trivial
  | cons s prog ih =>
    cases s with
    | new_node n => exact ih _
    | default_ctor => exact ih _
    | call v p => exact ⟨exact_in_of_law hne rf _ _ _ _, ih _⟩

/-- Of the doubles with the IEEE special values, only two zeros of opposite sign
compare equal without being identical. -/
theorem ieee_ne_false (p q : Ieee) (hpq : double.ne p q = false) :
    p = q ∨ ∃ s : Bool, p = Ieee.zero s ∧ q = Ieee.zero (!s) := by
  change Ieee.ne p q = false at hpq
  cases p <;> cases q <;> simp [Ieee.ne] at hpq ⊢
  · exact hpq
  · rename_i s t
    cases s <;> cases t <;> simp
  · exact hpq

end orders

/-! ## Expression trees: construction -/

section construction

variable {F : Type} [double F]

theorem node_at_alloc (h : heap F) (n : node F) (a : Nat) (ha : a < h.nodes.length) :
    (h.alloc n).1.node_at a = h.node_at a := by
  have hlt : a < h.nodes.reverse.length := by simpa using ha
  simp [heap.node_at, heap.alloc, List.getElem?_append_left hlt]

theorem wf_alloc (h : heap F) (n : node F) (hw : h.wf) : (h.alloc n).1.wf := by
  obtain ⟨hlen, harg⟩ := hw
  refine ⟨by simp [heap.alloc, hlen], ?_⟩
  intro a ha
  have ha2 : h.arg = some a := ha
  rw [node_at_alloc h n a (node_at_lt h a _ (harg a ha2))]
  exact harg a ha2

theorem grows_of_new (h : heap F) (n : node F) (hw : h.wf) :
    h.grows (variable_.of_new h n) :=
  ⟨wf_alloc h n hw, ⟨[n], rfl⟩, by simp [variable_.of_new, heap.alloc],
    coherent_alloc h n⟩

theorem grows_mk_arg (h : heap F) (hw : h.wf) : h.grows (variable_.mk_arg h) := by
  refine ⟨(mk_arg_spec h hw).1, ?_, node_at_lt _ _ _ (mk_arg_spec h hw).2,
    coherent_mk_arg h⟩
  unfold variable_.mk_arg arg_term.get
  cases h.arg with
  | some ptr => exact ⟨[], rfl⟩
  | none => exact ⟨[node.arg_term], rfl⟩

theorem grows_trans (h : heap F) (r r' : heap F × variable_) (h1 : h.grows r)
    (h2 : r.1.grows r') : h.grows r' := by
  obtain ⟨_, ⟨pre, hpre⟩, _, hc⟩ := h1
  obtain ⟨hw', ⟨pre', hpre'⟩, hlt', hc'⟩ := h2
  exact ⟨hw', ⟨pre' ++ pre, by rw [hpre', hpre, List.append_assoc]⟩, hlt',
    fun hco => hc' (hc hco)⟩

/-- Building an expression tree only constructs. -/
theorem build_grows (lit : ℝ → F) (e : expr) (h : heap F) (hw : h.wf) :
    h.grows (e.build lit h) := by
  induction e generalizing h with
  | const c => exact grows_of_new h _ hw
  | var => exact grows_mk_arg h hw
  | exp => exact grows_of_new h _ hw
  | log => exact grows_of_new h _ hw
  | sin => exact grows_of_new h _ hw
  | cos => exact grows_of_new h _ hw
  | tan => exact grows_of_new h _ hw
  | neg e ih =>
    exact grows_trans h _ _ (ih h hw) (grows_of_new _ _ (ih h hw).1)
  | add one other ih1 ih2 =>
    have g1 := ih1 h hw
    have g2 := ih2 _ g1.1
    exact grows_trans h _ _ g1 (grows_trans _ _ _ g2 (grows_of_new _ _ g2.1))
  | sub one other ih1 ih2 =>
    have g1 := ih1 h hw
    have g2 := ih2 _ g1.1
    exact grows_trans h _ _ g1 (grows_trans _ _ _ g2 (grows_of_new _ _ g2.1))
  | mul one other ih1 ih2 =>
    have g1 := ih1 h hw
    have g2 := ih2 _ g1.1
    exact grows_trans h _ _ g1 (grows_trans _ _ _ g2 (grows_of_new _ _ g2.1))
  | comp outer inner ih1 ih2 =>
    have g1 := ih1 h hw
    have g2 := ih2 _ g1.1
    exact grows_trans h _ _ g1 (grows_trans _ _ _ g2 (grows_of_new _ _ g2.1))
  | pow base exponent ih1 ih2 =>
    have g1 := ih1 h hw
    have g2 := ih2 _ g1.1
    exact grows_trans h _ _ g1 (grows_trans _ _ _ g2 (grows_of_new _ _ g2.1))
  | pow_d base exponent ih =>
    exact grows_trans h _ _ (ih h hw) (grows_of_new _ _ (ih h hw).1)

/-- The cache-free evaluator on an `arg_term`. -/
theorem evaluate_arg_at (g : List (node F)) (a : Nat) (p : F)
    (ha : g.reverse.get? a = some node.arg_term) : evaluate g a p = ⟨p, 1⟩ := by
  induction g with
  | nil => simp at ha
  | cons n g ih =>
    by_cases hlt : a < g.length
    · have hlt2 : a < g.reverse.length := by simpa using hlt
      have ha2 : g.reverse.get? a = some node.arg_term := by
        simpa [List.getElem?_append_left hlt2] using ha
      rw [evaluate_cons_lt n g a p hlt, ih ha2]
    · have hge : g.reverse.length ≤ a := by simpa using hlt
      have ha3 : [n].get? (a - g.length) = some node.arg_term := by
        simpa [List.getElem?_append_right hge] using ha
      have heq : a = g.length := by
        cases hd : a - g.length with
        | zero => omega
        | succ m => rw [hd] at ha3; simp at ha3
      have hn : n = node.arg_term := by
        rw [heq] at ha3; simpa using ha3
      subst hn
      exact evaluate_cons_arg g a p heq

/-- The cache-free value of an operand built earlier, seen from a later state. -/
theorem evaluate_grown (h : heap F) (r : heap F × variable_) (a : Nat) (p : F)
    (hg : h.grows r) (ha : a < h.nodes.length) :
    evaluate r.1.nodes a p = evaluate h.nodes a p := by
  obtain ⟨_, ⟨pre, hpre⟩, _, _⟩ := hg
  rw [hpre, evaluate_append pre h.nodes a p ha]

end construction

/-! ## Expression trees: soundness of the derivative -/

section soundness

theorem Dbl.ne_eq (p q : Dbl) (hpq : double.ne p q = false) : p = q := by
  cases p with
  | nan => simp at hpq
  | fin x =>
    cases q with
    | nan => simp at hpq
    | fin y =>
      have : x = y := by simpa using hpq
      rw [this]

theorem taylor_neg (f : ℝ → ℝ) (p : ℝ) (a : value_type Dbl) (ha : a.taylor f p) :
    a.neg.taylor (fun x => -f x) p := by
  obtain ⟨f', rfl, hf⟩ := ha
  exact ⟨-f', by simp [value_type.neg], hf.neg⟩

theorem taylor_add (f g : ℝ → ℝ) (p : ℝ) (a b : value_type Dbl) (ha : a.taylor f p)
    (hb : b.taylor g p) : (a.add b).taylor (fun x => f x + g x) p := by
  obtain ⟨f', rfl, hf⟩ := ha
  obtain ⟨g', rfl, hg⟩ := hb
  exact ⟨f' + g', by simp [value_type.add], hf.add hg⟩

theorem taylor_sub (f g : ℝ → ℝ) (p : ℝ) (a b : value_type Dbl) (ha : a.taylor f p)
    (hb : b.taylor g p) : (a.sub b).taylor (fun x => f x - g x) p := by
  obtain ⟨f', rfl, hf⟩ := ha
  obtain ⟨g', rfl, hg⟩ := hb
  exact ⟨f' - g', by simp [value_type.sub], hf.sub hg⟩

theorem taylor_mul (f g : ℝ → ℝ) (p : ℝ) (a b : value_type Dbl) (ha : a.taylor f p)
    (hb : b.taylor g p) : (a.mul b).taylor (fun x => f x * g x) p := by
  obtain ⟨f', rfl, hf⟩ := ha
  obtain ⟨g', rfl, hg⟩ := hb
  refine ⟨f' * g p + g' * f p, by simp [value_type.mul], ?_⟩
  have := hf.mul hg
  convert this using 1
  ring

theorem taylor_pow (f g : ℝ → ℝ) (p : ℝ) (a b : value_type Dbl) (ha : a.taylor f p)
    (hb : b.taylor g p) (hpos : 0 < f p) : (a.pow b).taylor (fun x => f x ^ g x) p := by
  obtain ⟨f', rfl, hf⟩ := ha
  obtain ⟨g', rfl, hg⟩ := hb
  refine ⟨f p ^ g p * (g' * Real.log (f p) + f' * g p / f p), by simp [value_type.pow], ?_⟩
  have := hf.rpow hg hpos
  convert this using 1
  rw [Real.rpow_sub_one (ne_of_gt hpos)]
  field_simp
  ring

theorem taylor_pow_d (f : ℝ → ℝ) (p k : ℝ) (a : value_type Dbl) (ha : a.taylor f p)
    (hpos : 0 < f p) : (a.pow_d (Dbl.fin k)).taylor (fun x => f x ^ k) p := by
  obtain ⟨f', rfl, hf⟩ := ha
  have h0 : f p ≠ 0 := ne_of_gt hpos
  have hval : f p ^ (k - 1) * f p = f p ^ k := by
    rw [Real.rpow_sub_one h0]
    field_simp
  refine ⟨k * f p ^ (k - 1) * f', by simp [value_type.pow_d, hval], ?_⟩
  have := hf.rpow_const (Or.inl h0 : f p ≠ 0 ∨ 1 ≤ k)
  convert this using 1
  ring

theorem taylor_comp (f g : ℝ → ℝ) (p : ℝ) (a b : value_type Dbl) (hb : b.taylor g p)
    (ha : a.taylor f (g p)) :
    value_type.taylor ⟨a.at_, a.prime * b.prime⟩ (fun x => f (g x)) p := by
  obtain ⟨f', rfl, hf⟩ := ha
  obtain ⟨g', rfl, hg⟩ := hb
  exact ⟨f' * g', by simp, HasDerivAt.comp p hf hg⟩

/-- The cache-free evaluator is sound on every expression tree at every point of its
domain. -/
theorem build_sound (e : expr) (h : heap Dbl) (hw : h.wf) (p : ℝ) (hd : e.defined p) :
    (evaluate (e.build Dbl.fin h).1.nodes (e.build Dbl.fin h).2.m_term
      (Dbl.fin p)).taylor e.denote p := by
  induction e generalizing h p with
  | const c =>
    have hv : evaluate ((expr.const c).build Dbl.fin h).1.nodes
        ((expr.const c).build Dbl.fin h).2.m_term (Dbl.fin p) = ⟨Dbl.fin c, Dbl.fin 0⟩ := by
      simp only [expr.build, variable_.of_double, variable_.of_new, heap.alloc]
      rw [evaluate_cons_const _ _ _ _ rfl]
      rfl
    rw [hv]
    exact ⟨0, rfl, hasDerivAt_const p c⟩
  | var =>
    have hv : evaluate ((expr.var).build Dbl.fin h).1.nodes
        ((expr.var).build Dbl.fin h).2.m_term (Dbl.fin p) = ⟨Dbl.fin p, Dbl.fin 1⟩ := by
      simp only [expr.build]
      rw [evaluate_arg_at _ _ _ (mk_arg_spec h hw).2]
      rfl
    rw [hv]
    exact ⟨1, rfl, hasDerivAt_id p⟩
  | exp =>
    have hv : evaluate ((expr.exp).build Dbl.fin h).1.nodes
        ((expr.exp).build Dbl.fin h).2.m_term (Dbl.fin p) = ⟨Dbl.fin (Real.exp p), Dbl.fin (Real.exp p)⟩ := by
      simp only [expr.build, composite.mk, variable_.of_new, heap.alloc]
      rw [evaluate_cons_cached _ _ _ _ rfl]
      simp [cached_kind.miss]
    rw [hv]
    exact ⟨_, rfl, Real.hasDerivAt_exp p⟩
  | log =>
    have hp0 : p ≠ 0 := ne_of_gt hd
    have hv : evaluate ((expr.log).build Dbl.fin h).1.nodes
        ((expr.log).build Dbl.fin h).2.m_term (Dbl.fin p)
        = ⟨Dbl.fin (Real.log p), Dbl.fin p⁻¹⟩ := by
      simp only [expr.build, composite.mk, variable_.of_new, heap.alloc]
      rw [evaluate_cons_cached _ _ _ _ rfl]
      simp [cached_kind.miss]
    rw [hv]
    exact ⟨_, rfl, Real.hasDerivAt_log hp0⟩
  | sin =>
    have hv : evaluate ((expr.sin).build Dbl.fin h).1.nodes
        ((expr.sin).build Dbl.fin h).2.m_term (Dbl.fin p) = ⟨Dbl.fin (Real.sin p), Dbl.fin (Real.cos p)⟩ := by
      simp only [expr.build, composite.mk, variable_.of_new, heap.alloc]
      rw [evaluate_cons_cached _ _ _ _ rfl]
      simp [cached_kind.miss]
    rw [hv]
    exact ⟨_, rfl, Real.hasDerivAt_sin p⟩
  | cos =>
    have hv : evaluate ((expr.cos).build Dbl.fin h).1.nodes
        ((expr.cos).build Dbl.fin h).2.m_term (Dbl.fin p) = ⟨Dbl.fin (Real.cos p), Dbl.fin (-Real.sin p)⟩ := by
      simp only [expr.build, composite.mk, variable_.of_new, heap.alloc]
      rw [evaluate_cons_cached _ _ _ _ rfl]
      simp [cached_kind.miss]
    rw [hv]
    exact ⟨_, rfl, Real.hasDerivAt_cos p⟩
  | tan =>
    have htan : 1 + Real.tan p * Real.tan p = 1 / Real.cos p ^ 2 := by
      have hc : Real.cos p ≠ 0 := hd
      rw [Real.tan_eq_sin_div_cos]
      field_simp
      nlinarith [Real.sin_sq_add_cos_sq p]
    have hv : evaluate ((expr.tan).build Dbl.fin h).1.nodes
        ((expr.tan).build Dbl.fin h).2.m_term (Dbl.fin p)
        = ⟨Dbl.fin (Real.tan p), Dbl.fin (1 / Real.cos p ^ 2)⟩ := by
      simp only [expr.build, composite.mk, variable_.of_new, heap.alloc]
      rw [evaluate_cons_cached _ _ _ _ rfl]
      simp [cached_kind.miss, htan]
    rw [hv]
    exact ⟨_, rfl, Real.hasDerivAt_tan hd⟩
  | neg e ih =>
    have hv : evaluate ((expr.neg e).build Dbl.fin h).1.nodes
        ((expr.neg e).build Dbl.fin h).2.m_term (Dbl.fin p)
        = value_type.neg
            (evaluate (e.build Dbl.fin h).1.nodes (e.build Dbl.fin h).2.m_term (Dbl.fin p)) := by
      simp only [expr.build, variable_.neg, variable_.of_new, heap.alloc]
      rw [evaluate_cons_cached _ _ _ _ rfl]
      simp only [cached_kind.miss]
    rw [hv]
    exact taylor_neg _ _ _ (ih h hw p hd)
  | add one other ih1 ih2 =>
    obtain ⟨hd1, hd2⟩ := hd
    have g1 := build_grows Dbl.fin one h hw
    have g2 := build_grows Dbl.fin other _ g1.1
    have hv : evaluate ((expr.add one other).build Dbl.fin h).1.nodes
        ((expr.add one other).build Dbl.fin h).2.m_term (Dbl.fin p)
        = value_type.add
            (evaluate (one.build Dbl.fin h).1.nodes (one.build Dbl.fin h).2.m_term (Dbl.fin p))
            (evaluate (other.build Dbl.fin (one.build Dbl.fin h).1).1.nodes
              (other.build Dbl.fin (one.build Dbl.fin h).1).2.m_term (Dbl.fin p)) := by
      simp only [expr.build, variable_.add, variable_.of_new, heap.alloc]
      rw [evaluate_cons_cached _ _ _ _ rfl]
      simp only [cached_kind.miss]
      rw [evaluate_grown _ _ _ _ g2 g1.2.2.1]
    rw [hv]
    exact taylor_add _ _ _ _ _ (ih1 h hw p hd1) (ih2 _ g1.1 p hd2)
  | sub one other ih1 ih2 =>
    obtain ⟨hd1, hd2⟩ := hd
    have g1 := build_grows Dbl.fin one h hw
    have g2 := build_grows Dbl.fin other _ g1.1
    have hv : evaluate ((expr.sub one other).build Dbl.fin h).1.nodes
        ((expr.sub one other).build Dbl.fin h).2.m_term (Dbl.fin p)
        = value_type.sub
            (evaluate (one.build Dbl.fin h).1.nodes (one.build Dbl.fin h).2.m_term (Dbl.fin p))
            (evaluate (other.build Dbl.fin (one.build Dbl.fin h).1).1.nodes
              (other.build Dbl.fin (one.build Dbl.fin h).1).2.m_term (Dbl.fin p)) := by
      simp only [expr.build, variable_.sub, variable_.of_new, heap.alloc]
      rw [evaluate_cons_cached _ _ _ _ rfl]
      simp only [cached_kind.miss]
      rw [evaluate_grown _ _ _ _ g2 g1.2.2.1]
    rw [hv]
    exact taylor_sub _ _ _ _ _ (ih1 h hw p hd1) (ih2 _ g1.1 p hd2)
  | mul one other ih1 ih2 =>
    obtain ⟨hd1, hd2⟩ := hd
    have g1 := build_grows Dbl.fin one h hw
    have g2 := build_grows Dbl.fin other _ g1.1
    have hv : evaluate ((expr.mul one other).build Dbl.fin h).1.nodes
        ((expr.mul one other).build Dbl.fin h).2.m_term (Dbl.fin p)
        = value_type.mul
            (evaluate (one.build Dbl.fin h).1.nodes (one.build Dbl.fin h).2.m_term (Dbl.fin p))
            (evaluate (other.build Dbl.fin (one.build Dbl.fin h).1).1.nodes
              (other.build Dbl.fin (one.build Dbl.fin h).1).2.m_term (Dbl.fin p)) := by
      simp only [expr.build, variable_.mul, variable_.of_new, heap.alloc]
      rw [evaluate_cons_cached _ _ _ _ rfl]
      simp only [cached_kind.miss]
      rw [evaluate_grown _ _ _ _ g2 g1.2.2.1]
    rw [hv]
    exact taylor_mul _ _ _ _ _ (ih1 h hw p hd1) (ih2 _ g1.1 p hd2)
  | comp outer inner ih1 ih2 =>
    obtain ⟨hd2, hd1⟩ := hd
    have g1 := build_grows Dbl.fin outer h hw
    have g2 := build_grows Dbl.fin inner _ g1.1
    have e2 := ih2 _ g1.1 p hd2
    have e1 := ih1 h hw (inner.denote p) hd1
    obtain ⟨d2, hv2, hder2⟩ := e2
    have hv : evaluate ((expr.comp outer inner).build Dbl.fin h).1.nodes
        ((expr.comp outer inner).build Dbl.fin h).2.m_term (Dbl.fin p)
        = ⟨(evaluate (outer.build Dbl.fin h).1.nodes (outer.build Dbl.fin h).2.m_term
              (Dbl.fin (inner.denote p))).at_,
            (evaluate (outer.build Dbl.fin h).1.nodes (outer.build Dbl.fin h).2.m_term
              (Dbl.fin (inner.denote p))).prime * Dbl.fin d2⟩ := by
      simp only [expr.build, variable_.comp, variable_.of_new, heap.alloc]
      rw [evaluate_cons_cached _ _ _ _ rfl]
      simp only [cached_kind.miss]
      rw [hv2, evaluate_grown _ _ _ _ g2 g1.2.2.1]
    rw [hv]
    exact taylor_comp outer.denote inner.denote p _
      ⟨Dbl.fin (inner.denote p), Dbl.fin d2⟩ ⟨d2, rfl, hder2⟩ e1
  | pow one other ih1 ih2 =>
    obtain ⟨hd1, hd2, hpos⟩ := hd
    have g1 := build_grows Dbl.fin one h hw
    have g2 := build_grows Dbl.fin other _ g1.1
    have hv : evaluate ((expr.pow one other).build Dbl.fin h).1.nodes
        ((expr.pow one other).build Dbl.fin h).2.m_term (Dbl.fin p)
        = value_type.pow
            (evaluate (one.build Dbl.fin h).1.nodes (one.build Dbl.fin h).2.m_term (Dbl.fin p))
            (evaluate (other.build Dbl.fin (one.build Dbl.fin h).1).1.nodes
              (other.build Dbl.fin (one.build Dbl.fin h).1).2.m_term (Dbl.fin p)) := by
      simp only [expr.build, variable_.pow, variable_.of_new, heap.alloc]
      rw [evaluate_cons_cached _ _ _ _ rfl]
      simp only [cached_kind.miss]
      rw [evaluate_grown _ _ _ _ g2 g1.2.2.1]
    rw [hv]
    exact taylor_pow _ _ _ _ _ (ih1 h hw p hd1) (ih2 _ g1.1 p hd2) hpos
  | pow_d base exponent ih =>
    obtain ⟨hd1, hpos⟩ := hd
    have hv : evaluate ((expr.pow_d base exponent).build Dbl.fin h).1.nodes
        ((expr.pow_d base exponent).build Dbl.fin h).2.m_term (Dbl.fin p)
        = value_type.pow_d
            (evaluate (base.build Dbl.fin h).1.nodes (base.build Dbl.fin h).2.m_term
              (Dbl.fin p)) (Dbl.fin exponent) := by
      simp only [expr.build, variable_.pow_d, variable_.of_new, heap.alloc]
      rw [evaluate_cons_cached _ _ _ _ rfl]
      simp only [cached_kind.miss]
    rw [hv]
    exact taylor_pow_d _ _ _ _ (ih h hw p hd1) hpos

end soundness

/-! ## Memoization and soundness: the claims -/

section behaviour

variable {F : Type} [double F]

/-- C17 (as amended): memoization is transparent on every run whose cache hits are all
exact, whichever operand the binary nodes evaluate first. For every client program, any
mix of handle constructions (sharing objects at will) and evaluations, run from program
start or from any coherent state: if at every cache hit of the run the argument is the
very value stored as last-seen point, then each evaluation returns the value of the
cache-free evaluator. The invariant, that a proper last-seen point comes with the
cache-free result at that point, holds at program start and is kept by every
construction and every such evaluation. Every hit is exact where `!=` is false only
between identical values, and among the doubles with the IEEE special values only two
zeros of opposite sign compare equal without being identical. With the first operand
first the evaluation is `variable_.call`. -/
theorem C17_memoization_transparent (right_first : Bool) (prog : List (step F))
    (h : heap F) (hco : h.coherent) (v : variable_) (p : F) (n : node F) :
    (exact_run right_first heap.init prog →
        run_in right_first heap.init prog = run_cache_free heap.init prog)
      ∧ (exact_run right_first h prog → run_in right_first h prog = run_cache_free h prog)
      ∧ (exact_in right_first h.nodes h.cells v.m_term p →
          (v.call_in right_first h p).1 = evaluate h.nodes v.m_term p
            ∧ (v.call_in right_first h p).2.coherent)
      ∧ (heap.init : heap F).coherent
      ∧ (variable_.of_new h n).1.coherent
      ∧ (variable_.mk_arg h).1.coherent
      ∧ ((∀ x y : F, double.ne x y = false → x = y) →
          exact_run right_first heap.init prog ∧ exact_run right_first h prog
            ∧ exact_in right_first h.nodes h.cells v.m_term p)
      ∧ (∀ x y : Ieee, double.ne x y = false →
          x = y ∨ ∃ s : Bool, x = Ieee.zero s ∧ y = Ieee.zero (!s))
      ∧ v.call_in false h p = v.call h p :=
  ⟨fun hex => run_in_eq_cache_free right_first prog heap.init heap.init rfl rfl
      coherent_init hex,
    fun hex => run_in_eq_cache_free right_first prog h h rfl rfl hco hex,
    fun hex => call_in_evaluate right_first h.nodes h.cells v.m_term p hco hex,
    coherent_init, coherent_alloc h n hco, coherent_mk_arg h hco,
    fun hne => ⟨exact_run_of_law hne right_first prog heap.init,
      exact_run_of_law hne right_first prog h,
      exact_in_of_law hne right_first h.nodes h.cells v.m_term p⟩,
    ieee_ne_false,
    by simp [variable_.call_in, variable_.call, call_in_false]⟩

/-- C17, witness: over the doubles with the IEEE special values and with the second
operand first, the program that evaluates `P + P` and `P = x * x` (one shared product
object) at `2.0`, `2.0`, `0.0`, `0.0` and `3.0`: every hit is exact, and the values are
those of the cache-free evaluator. -/
theorem C17_memoization_transparent_witness :
    (heap.init : heap Ieee).coherent
      ∧ exact_run true heap.init shared_product_program
      ∧ run_in true heap.init shared_product_program
        = run_cache_free heap.init shared_product_program
      ∧ run_in true heap.init shared_product_program
        = [⟨Ieee.num 8, Ieee.num 8⟩, ⟨Ieee.num 8, Ieee.num 8⟩,
            ⟨Ieee.zero false, Ieee.zero false⟩, ⟨Ieee.zero false, Ieee.zero false⟩,
            ⟨Ieee.num 18, Ieee.num 12⟩] := by
  have hnum : ∀ x y : ℝ, double.ne (Ieee.num x) (Ieee.num y) = decide (x ≠ y) :=
    fun _ _ => rfl
  have hzz : ∀ s t : Bool, double.ne (Ieee.zero s) (Ieee.zero t) = false := fun _ _ => rfl
  have hzn : ∀ (s : Bool) (x : ℝ), double.ne (Ieee.zero s) (Ieee.num x) = true :=
    fun _ _ => rfl
  have hnz : ∀ (s : Bool) (x : ℝ), double.ne (Ieee.num x) (Ieee.zero s) = true :=
    fun _ _ => rfl
  have hex : exact_run true heap.init shared_product_program := by
    simp [exact_run, shared_product_program, variable_.mk_arg, arg_term.get,
      variable_.of_new, heap.alloc, heap.init, variable_.call_in, exact_in, call_in,
      cached_kind.exact_miss, exact_pair, cached_kind.miss_in, cached_kind.miss_right_first,
      cached_kind.miss, value_type.mul, value_type.add, hnum, hzz, hzn, hnz]
  have hrun := (C17_memoization_transparent true shared_product_program heap.init
    coherent_init ⟨0⟩ (Ieee.zero false) node.arg_term).1 hex
  refine ⟨coherent_init, hex, hrun, ?_⟩
  simp [run_in, shared_product_program, variable_.mk_arg, arg_term.get,
    variable_.of_new, heap.alloc, heap.init, variable_.call_in, call_in,
    cached_kind.miss_in, cached_kind.miss_right_first,
    cached_kind.miss, value_type.mul, value_type.add, hnum, hzz, hzn, hnz,
    ieee_mul_def, ieee_add_def, ieee_one_def, Ieee.mul, Ieee.add, Ieee.of_real, Ieee.negative]
  norm_num

/-- C18: for every expression tree built from constants, the variable, the elementary
functions, Negate, Add, Subtract, Multiply, Compose and the two powers with a tree base,
and every real point `p` at which each `log` argument and power base met is positive and
each `tan` argument has non-zero cosine, the engine returns the value `F(p)` and the
derivative `F'(p)` of the function `F` the tree denotes. -/
theorem C18_forward_mode_sound (e : expr) (h : heap Dbl) (hw : h.wf) (hco : h.coherent)
    (p : ℝ) (hd : e.defined p) :
    ∃ d : ℝ,
      (variable_.call (e.build Dbl.fin h).1 (e.build Dbl.fin h).2 (Dbl.fin p)).1
          = ⟨Dbl.fin (e.denote p), Dbl.fin d⟩
        ∧ HasDerivAt e.denote d p := by
  have hg := build_grows Dbl.fin e h hw
  have hc := hg.2.2.2 hco
  have hv := (call_evaluate Dbl.ne_eq _ _ (e.build Dbl.fin h).2.m_term (Dbl.fin p) hc).1
  obtain ⟨d, hd1, hd2⟩ := build_sound e h hw p hd
  exact ⟨d, by simp only [variable_.call]; rw [hv, hd1], hd2⟩

/-- C18, witness: `sin(x) ^ cos(x)` from `main`, built at program start, at `2.0`. -/
theorem C18_forward_mode_sound_witness :
    (heap.init : heap Dbl).wf ∧ (heap.init : heap Dbl).coherent ∧ main_c.defined 2
      ∧ ∃ d : ℝ,
          (variable_.call (main_c.build Dbl.fin heap.init).1
              (main_c.build Dbl.fin heap.init).2 (Dbl.fin 2)).1
            = ⟨Dbl.fin (main_c.denote 2), Dbl.fin d⟩
          ∧ HasDerivAt main_c.denote d 2 := by
  have hdef : main_c.defined 2 := by
    refine ⟨⟨trivial, trivial⟩, ⟨trivial, trivial⟩, ?_⟩
    show 0 < Real.sin 2
    exact Real.sin_pos_of_pos_of_lt_pi (by norm_num) (by linarith [Real.pi_gt_three])
  exact ⟨init_wf, coherent_init, hdef,
    C18_forward_mode_sound main_c heap.init init_wf coherent_init 2 hdef⟩

end behaviour

/-! ## The two zeros -/

section zeros

/-- C17, counterexample: with the two zeros of IEEE 754, under either order of the
operand calls. The bare `log` handle called at `0.0` and then at `-0.0` returns
`(-∞, +∞)` both times, since `-0.0 != 0.0` is false and the second call is a hit; the
cache-free evaluator returns `(-∞, -∞)` at `-0.0`. And a program that evaluates only at
`1.0` reaches the shared `log` object at `0.0` and then at `-0.0`: `L(-(x - 1))` returns
`(-∞, -∞)` where the cache-free evaluator gives `(-∞, +∞)`. Neither run has all its
hits exact. -/
theorem C17_negative_zero_hits_positive_zero :
    double.ne (Ieee.zero true) (Ieee.zero false) = false
      ∧ run_in false heap.init zeros_program
        = [⟨Ieee.inf true, Ieee.inf false⟩, ⟨Ieee.inf true, Ieee.inf false⟩]
      ∧ run_in true heap.init zeros_program
        = [⟨Ieee.inf true, Ieee.inf false⟩, ⟨Ieee.inf true, Ieee.inf false⟩]
      ∧ run_cache_free heap.init zeros_program
        = [⟨Ieee.inf true, Ieee.inf false⟩, ⟨Ieee.inf true, Ieee.inf true⟩]
      ∧ run_in false heap.init zeros_program ≠ run_cache_free heap.init zeros_program
      ∧ run_in true heap.init zeros_program ≠ run_cache_free heap.init zeros_program
      ∧ run_in false heap.init opposite_zeros_program
        = [⟨Ieee.inf true, Ieee.inf false⟩, ⟨Ieee.inf true, Ieee.inf true⟩]
      ∧ run_in true heap.init opposite_zeros_program
        = [⟨Ieee.inf true, Ieee.inf false⟩, ⟨Ieee.inf true, Ieee.inf true⟩]
      ∧ run_cache_free heap.init opposite_zeros_program
        = [⟨Ieee.inf true, Ieee.inf false⟩, ⟨Ieee.inf true, Ieee.inf false⟩]
      ∧ run_in false heap.init opposite_zeros_program
        ≠ run_cache_free heap.init opposite_zeros_program
      ∧ run_in true heap.init opposite_zeros_program
        ≠ run_cache_free heap.init opposite_zeros_program
      ∧ ¬ exact_run false heap.init zeros_program
      ∧ ¬ exact_run true heap.init zeros_program
      ∧ ¬ exact_run false heap.init opposite_zeros_program
      ∧ ¬ exact_run true heap.init opposite_zeros_program := by
  have hnum : ∀ x y : ℝ, double.ne (Ieee.num x) (Ieee.num y) = decide (x ≠ y) :=
    fun _ _ => rfl
  have hzz : ∀ s t : Bool, double.ne (Ieee.zero s) (Ieee.zero t) = false := fun _ _ => rfl
  have hlog : ∀ s, double.log (Ieee.zero s) = Ieee.inf true := fun _ => rfl
  have hneg : ∀ x : Ieee, -x = Ieee.neg x := fun _ => rfl
  have hsub : ∀ x y : Ieee, x - y = Ieee.add x (Ieee.neg y) := fun _ _ => rfl
  have h1 : ∀ right_first : Bool, run_in right_first heap.init zeros_program
      = [⟨Ieee.inf true, Ieee.inf false⟩, ⟨Ieee.inf true, Ieee.inf false⟩] := by
    intro right_first
    cases right_first <;>
      simp [run_in, zeros_program, variable_.of_new, heap.alloc, heap.init,
        variable_.call_in, call_in, cached_kind.miss_in, cached_kind.miss_right_first,
        cached_kind.miss, hzz, hlog, ieee_div_def, ieee_one_def, Ieee.div, Ieee.negative]
  have h2 : run_cache_free heap.init zeros_program
      = [⟨Ieee.inf true, Ieee.inf false⟩, ⟨Ieee.inf true, Ieee.inf true⟩] := by
    simp [run_cache_free, zeros_program, variable_.of_new, heap.alloc, heap.init, evaluate,
      cached_kind.miss, hlog, ieee_div_def, ieee_one_def, Ieee.div, Ieee.negative]
  have h3 : ∀ right_first : Bool, run_in right_first heap.init opposite_zeros_program
      = [⟨Ieee.inf true, Ieee.inf false⟩, ⟨Ieee.inf true, Ieee.inf true⟩] := by
    intro right_first
    cases right_first <;>
      simp [run_in, opposite_zeros_program, variable_.mk_arg, arg_term.get,
        variable_.of_new, heap.alloc, heap.init,
        variable_.call_in, call_in, cached_kind.miss_in, cached_kind.miss_right_first,
        cached_kind.miss, value_type.sub, value_type.neg, hnum, hzz, hlog, hneg, hsub,
        ieee_div_def, ieee_mul_def, ieee_one_def, ieee_zero_def, Ieee.div, Ieee.mul,
        Ieee.add, Ieee.neg, Ieee.of_real, Ieee.negative]
  have h4 : run_cache_free heap.init opposite_zeros_program
      = [⟨Ieee.inf true, Ieee.inf false⟩, ⟨Ieee.inf true, Ieee.inf false⟩] := by
    simp [run_cache_free, opposite_zeros_program, variable_.mk_arg, arg_term.get,
      variable_.of_new, heap.alloc, heap.init, evaluate,
      cached_kind.miss, value_type.sub, value_type.neg, hlog, hneg, hsub,
      ieee_div_def, ieee_mul_def, ieee_one_def, ieee_zero_def, Ieee.div, Ieee.mul,
      Ieee.add, Ieee.neg, Ieee.of_real, Ieee.negative]
  have d1 : ∀ right_first : Bool,
      run_in right_first heap.init zeros_program ≠ run_cache_free heap.init zeros_program := by
    intro right_first
    rw [h1, h2]
    simp
  have d2 : ∀ right_first : Bool, run_in right_first heap.init opposite_zeros_program
      ≠ run_cache_free heap.init opposite_zeros_program := by
    intro right_first
    rw [h3, h4]
    simp
  have x1 : ∀ right_first : Bool, ¬ exact_run right_first heap.init zeros_program :=
    fun right_first hex => d1 right_first
      (run_in_eq_cache_free right_first zeros_program heap.init heap.init rfl rfl
        coherent_init hex)
  have x2 : ∀ right_first : Bool, ¬ exact_run right_first heap.init opposite_zeros_program :=
    fun right_first hex => d2 right_first
      (run_in_eq_cache_free right_first opposite_zeros_program heap.init heap.init rfl rfl
        coherent_init hex)
  exact ⟨rfl, h1 false, h1 true, h2, d1 false, d1 true, h3 false, h3 true, h4, d2 false,
    d2 true, x1 false, x1 true, x2 false, x2 true⟩

end zeros

end term
